import Mathlib

/-!
Verification of the fixed-width unsigned integer arithmetic core of
`src/E.cpp` (an embedded copy of the intx library).

The C++ type `uint<N>` stores `N/64` little-endian 64-bit words.  We model a
64-bit word as a natural number `< 2^64` (wraparound written explicitly as
`% 2^64`), and a value of `uint<N>` as a `List ℕ` of length `N/64` whose
entries are all `< 2^64` (least significant word first).  Every definition
mirrors the corresponding C++ function; C++ bit tricks on `uint64_t` are
rendered arithmetically: `x >> k` is `x / 2^k`, `x << k` is `x * 2^k % 2^64`,
`x & (2^k - 1)` is `x % 2^k`, and `a | b` for operands with disjoint bit
ranges is written `+`.
-/

namespace Intx

-- ===== DEFINITIONS =====

/-- The 64-bit word modulus `2^64`. -/
def W : ℕ := 2 ^ 64

/-- `add_with_carry(uint64_t x, uint64_t y, bool carry)` from E.cpp:
`s = x + y; carry1 = s < x; t = s + carry; carry2 = t < s;
return {t, carry1 || carry2}`. -/
def add_with_carry (x y : ℕ) (carry : Bool) : ℕ × Bool :=
  let s := (x + y) % W
  let carry1 := decide (s < x)
  let t := (s + carry.toNat) % W
  let carry2 := decide (t < s)
  (t, carry1 || carry2)

/-- `sub_with_carry(uint64_t x, uint64_t y, bool carry)` from E.cpp:
`d = x - y; carry1 = x < y; e = d - carry; carry2 = d < carry;
return {e, carry1 || carry2}`. -/
def sub_with_carry (x y : ℕ) (carry : Bool) : ℕ × Bool :=
  let d := (W + x - y) % W
  let carry1 := decide (x < y)
  let e := (W + d - carry.toNat) % W
  let carry2 := decide (d < carry.toNat)
  (e, carry1 || carry2)

/-- The portable branch of `umul(uint64_t x, uint64_t y)` from E.cpp
(32-bit partial products).  Returns the 128-bit product as `(lo, hi)`,
matching the source's `uint128{lo, hi}`. -/
def umul64 (x y : ℕ) : ℕ × ℕ :=
  let xl := x % 2 ^ 32
  let xh := x / 2 ^ 32
  let yl := y % 2 ^ 32
  let yh := y / 2 ^ 32
  let t0 := xl * yl
  let t1 := xh * yl
  let t2 := xl * yh
  let t3 := xh * yh
  let u1 := t1 + t0 / 2 ^ 32
  let u2 := t2 + u1 % 2 ^ 32
  -- lo = (u2 << 32) | (t0 & 0xffffffff): the two halves have disjoint bits.
  let lo := u2 % 2 ^ 32 * 2 ^ 32 + t0 % 2 ^ 32
  let hi := t3 + u2 / 2 ^ 32 + u1 / 2 ^ 32
  (lo, hi)

/-- The natural number denoted by a little-endian word list. -/
def limbsVal : List ℕ → ℕ
  | [] => 0
  | w :: l => w + W * limbsVal l

/-- All entries of the list are legal 64-bit words. -/
def wordsLt (l : List ℕ) : Prop := ∀ w ∈ l, w < W

/-- The word loop of the generic `add_with_carry(uint<N>, uint<N>, bool)`
(E.cpp lines 154-166): `s[i] = x[i] + y[i]; k1 = s[i] < x[i]; s[i] += k;
k = (s[i] < k) || k1`. -/
def add_words : List ℕ → List ℕ → Bool → List ℕ × Bool
  | x :: xs, y :: ys, k =>
    let s := (x + y) % W
    let k1 := decide (s < x)
    let s' := (s + k.toNat) % W
    let k' := decide (s' < k.toNat) || k1
    let r := add_words xs ys k'
    (s' :: r.1, r.2)
  | _, _, k => ([], k)

/-- The word loop of the generic `sub_with_carry(uint<N>, uint<N>, bool)`
(E.cpp lines 185-198): `z[i] = x[i] - y[i]; k1 = x[i] < y[i];
k2 = z[i] < k; z[i] -= k; k = k1 || k2`. -/
def sub_words : List ℕ → List ℕ → Bool → List ℕ × Bool
  | x :: xs, y :: ys, k =>
    let z := (W + x - y) % W
    let k1 := decide (x < y)
    let k2 := decide (z < k.toNat)
    let z' := (W + z - k.toNat) % W
    let r := sub_words xs ys (k1 || k2)
    (z' :: r.1, r.2)
  | _, _, k => ([], k)

/-- `operator+(uint<N>, uint<N>)` (E.cpp 1223-1227): `add_with_carry(x, y).value`. -/
def uadd (x y : List ℕ) : List ℕ := (add_words x y false).1

/-- `operator-(uint<N>, uint<N>)` (E.cpp 1234-1238): `sub_with_carry(x, y).value`. -/
def usub (x y : List ℕ) : List ℕ := (sub_words x y false).1

/-- `operator<(uint<N>, uint<N>)` (E.cpp 936-939): `sub_with_carry(x, y).carry`. -/
def ult (x y : List ℕ) : Bool := (sub_words x y false).2

/-- `operator~(uint<N>)` (E.cpp 1042-1048): word-wise bitwise NOT;
`~w = 2^64 - 1 - w` for a 64-bit word. -/
def not_words (x : List ℕ) : List ℕ := x.map (fun w => W - 1 - w)

/-- Construction of a `uint<N>` from a 64-bit value (the variadic word
constructor, E.cpp 853-855): word 0 is `v`, the rest are zero. -/
def from_u64 (n v : ℕ) : List ℕ := v :: List.replicate (n - 1) 0

/-- `operator-(uint<N>)` (E.cpp 1229-1232): `~x + uint<N>{1}`. -/
def neg_words (x : List ℕ) : List ℕ := uadd (not_words x) (from_u64 x.length 1)

/-- Inner loop of widening `umul(uint<N>, uint<N>)` (E.cpp 1253-1267) for one
column `j`, acting on the suffix of `p` starting at index `j`:
`t = umul(x[i], y[j]) + p[i + j] + k; p[i + j] = t[0]; k = t[1]`, and after
the loop `p[j + num_words] = k`.  The `uint128` value `t` is written as a
natural number (`t[0] = t % 2^64`, `t[1] = t / 2^64`); `uint128` arithmetic
wraps modulo `2^128 = W^2`. -/
def umul_full_col (yj : ℕ) : List ℕ → List ℕ → ℕ → List ℕ
  | xi :: xs, pi :: ps, k =>
    let t := (xi * yj + pi + k) % W ^ 2
    t % W :: umul_full_col yj xs ps (t / W)
  | [], _pi :: ps, k => k :: ps
  | _, [], _ => []

/-- Column loop of widening `umul` (`for j in [0, num_words)`): after column
`j` the word `p[j]` is final, so recurse on the tail. -/
def umul_full_aux (x : List ℕ) : List ℕ → List ℕ → List ℕ
  | yj :: ys, p =>
    match umul_full_col yj x p 0 with
    | [] => []
    | p0 :: rest => p0 :: umul_full_aux x ys rest
  | [], p => p

/-- Widening `umul(const uint<N>& x, const uint<N>& y) -> uint<2N>`
(E.cpp 1252-1267): full schoolbook product over `p` of `2 * num_words`
zero-initialised words. -/
def umul_full (x y : List ℕ) : List ℕ :=
  umul_full_aux x y (List.replicate (2 * x.length) 0)

/-- Inner loop of the truncating `operator*(uint<N>, uint<N>)`
(E.cpp 1269-1285) for one column `j`, on the suffix of `p` from index `j`:
`for i < num_words - j - 1`: `t = umul(x[i], y[j]) + p[i + j] + k;
p[i + j] = t[0]; k = t[1]`, then
`p[num_words - 1] += x[num_words - j - 1] * y[j] + k` (64-bit wraparound). -/
def op_mul_col (yj : ℕ) : List ℕ → List ℕ → ℕ → List ℕ
  | xi :: _xs, [pi], k => [(pi + (xi * yj + k)) % W]
  | xi :: xs, pi :: ps, k =>
    let t := (xi * yj + pi + k) % W ^ 2
    t % W :: op_mul_col yj xs ps (t / W)
  | _, p, _ => p

/-- Column loop of `operator*` (`for j in [0, num_words)`). -/
def op_mul_aux (x : List ℕ) : List ℕ → List ℕ → List ℕ
  | yj :: ys, p =>
    match op_mul_col yj x p 0 with
    | [] => []
    | p0 :: rest => p0 :: op_mul_aux x ys rest
  | [], p => p

/-- Truncating `operator*(const uint<N>& x, const uint<N>& y)`
(E.cpp 1269-1285): schoolbook double loop keeping only the low `N` bits,
over `p` of `num_words` zero-initialised words. -/
def op_mul (x y : List ℕ) : List ℕ :=
  op_mul_aux x y (List.replicate x.length 0)

/-- Portable branch of `operator<(uint128, uint128)` (E.cpp 255-264):
`(x[1] < y[1]) | ((x[1] == y[1]) & (x[0] < y[0]))`. -/
def ult128 (x0 x1 y0 y1 : ℕ) : Bool :=
  decide (x1 < y1) || (decide (x1 = y1) && decide (x0 < y0))

/-- `operator==(uint128, uint128)` (E.cpp 242-248): word-wise conjunction. -/
def eq128 (x0 x1 y0 y1 : ℕ) : Bool :=
  decide (x0 = y0) && decide (x1 = y1)

/-- The `uint256` specialization of `operator<` (E.cpp 926-932): split into
128-bit halves, `(xhi < yhi) | ((xhi == yhi) & (xlo < ylo))`. -/
def ult256 (x0 x1 x2 x3 y0 y1 y2 y3 : ℕ) : Bool :=
  ult128 x2 x3 y2 y3 || (eq128 x2 x3 y2 y3 && ult128 x0 x1 y0 y1)

/-- Body of the generic `operator<<(uint<N>, uint64_t)` word loop
(E.cpp 1089-1094): `r[i + skip] = (x[i] << s) | carry;
carry = (x[i] >> (word_bits - s - 1)) >> 1`.  The shifted word and the carry
occupy disjoint bit ranges, so `|` is `+`. -/
def shl_loop (s : ℕ) : List ℕ → ℕ → List ℕ
  | [], _carry => []
  | xi :: xs, carry =>
    (xi * 2 ^ s % W + carry) :: shl_loop s xs (xi / 2 ^ (64 - s - 1) / 2)

/-- Generic `operator<<(const uint<N>& x, uint64_t shift)` (E.cpp 1079-1096):
zero when `shift >= N`, otherwise whole-word skip plus cross-word carry. -/
def shl_words (x : List ℕ) (shift : ℕ) : List ℕ :=
  if 64 * x.length ≤ shift then List.replicate x.length 0
  else
    List.replicate (shift / 64) 0 ++
      shl_loop (shift % 64) (x.take (x.length - shift / 64)) 0

/-- Body of the generic `operator>>(uint<N>, uint64_t)` word loop
(E.cpp 1138-1143), processing words from most significant to least:
`r[n-1-i-skip] = (x[n-1-i] >> s) | carry;
carry = (x[n-1-i] << (word_bits - s - 1)) << 1`. -/
def shr_loop (s : ℕ) : List ℕ → ℕ → List ℕ
  | [], _carry => []
  | xi :: xs, carry =>
    (xi / 2 ^ s + carry) :: shr_loop s xs (xi * 2 ^ (64 - s - 1) % W * 2 % W)

/-- Generic `operator>>(const uint<N>& x, uint64_t shift)` (E.cpp 1127-1145):
zero when `shift >= N`, otherwise whole-word skip plus cross-word carry. -/
def shr_words (x : List ℕ) (shift : ℕ) : List ℕ :=
  if 64 * x.length ≤ shift then List.replicate x.length 0
  else
    (shr_loop (shift % 64) (x.reverse.take (x.length - shift / 64)) 0).reverse
      ++ List.replicate (shift / 64) 0

/-- `high_words_fold` of `operator<<(uint<N>, uint<N>)` (E.cpp 1150-1152):
bitwise OR of all shift words above word 0. -/
def high_words_fold (sh : List ℕ) : ℕ :=
  (sh.drop 1).foldl (fun a b => a ||| b) 0

/-- `operator<<(const uint<N>& x, const uint<N>& shift)` (E.cpp 1147-1158). -/
def shl_words_u (x sh : List ℕ) : List ℕ :=
  if high_words_fold sh ≠ 0 then List.replicate x.length 0
  else shl_words x (sh.headD 0)

/-- `operator>>(const uint<N>& x, const uint<N>& shift)` (E.cpp 1160-1171). -/
def shr_words_u (x sh : List ℕ) : List ℕ :=
  if high_words_fold sh ≠ 0 then List.replicate x.length 0
  else shr_words x (sh.headD 0)

/-- `operator|(uint<N>, uint<N>)` (E.cpp 1015-1022): word-wise OR. -/
def or_words (x y : List ℕ) : List ℕ := List.zipWith (fun a b => a ||| b) x y

/-- `std::numeric_limits<uint<N>>::digits10` (E.cpp 709):
`int(0.3010299956639812 * digits)` with `digits = N`; the truncated double
product agrees with this exact rational for every supported width. -/
def digits10 (N : ℕ) : ℕ := 3010299956639812 * N / 10 ^ 16

/-- `from_dec_digit(char c)` (E.cpp 750-754).  A `char` is modelled by its
numeric code (`'0' = 48`, `'9' = 57`). -/
def from_dec_digit (c : ℕ) : Except String ℕ :=
  if c < 48 ∨ 57 < c then Except.error "invalid digit"
  else Except.ok (c - 48)

/-- `from_hex_digit(char c)` (E.cpp 756-762); `'a' = 97`, `'f' = 102`,
`'A' = 65`, `'F' = 70`. -/
def from_hex_digit (c : ℕ) : Except String ℕ :=
  if 97 ≤ c ∧ c ≤ 102 then Except.ok (c - 97 + 10)
  else if 65 ≤ c ∧ c ≤ 70 then Except.ok (c - 65 + 10)
  else from_dec_digit c

/-- The decimal loop of `from_string` (E.cpp 780-789):
`if (num_digits++ > digits10) throw; d = from_dec_digit(c);
x = x * 10 + d; if (x < d) throw`. -/
def from_string_dec (n : ℕ) : List ℕ → List ℕ → ℕ → Except String (List ℕ)
  | [], x, _ => Except.ok x
  | c :: s, x, num_digits =>
    if digits10 (64 * n) < num_digits then Except.error "out of range"
    else
      match from_dec_digit c with
      | Except.error e => Except.error e
      | Except.ok d =>
        let x' := uadd (op_mul x (from_u64 n 10)) (from_u64 n d)
        if ult x' (from_u64 n d) then Except.error "out of range"
        else from_string_dec n s x' (num_digits + 1)

/-- The hex loop of `from_string` (E.cpp 772-777):
`if (++num_digits > sizeof(x) * 2) throw; x = (x << 4) | from_hex_digit(c)`. -/
def from_string_hex (n : ℕ) : List ℕ → List ℕ → ℕ → Except String (List ℕ)
  | [], x, _ => Except.ok x
  | c :: s, x, num_digits =>
    if 16 * n < num_digits + 1 then Except.error "out of range"
    else
      match from_hex_digit c with
      | Except.error e => Except.error e
      | Except.ok d =>
        from_string_hex n s (or_words (shl_words x 4) (from_u64 n d))
          (num_digits + 1)

/-- `from_string<Int>(const char* str)` (E.cpp 764-790): dispatch on the
`0x` prefix (`'0' = 48`, `'x' = 120`), starting from `x = 0` and
`num_digits = 0`. -/
def from_string (n : ℕ) (s : List ℕ) : Except String (List ℕ) :=
  if 2 ≤ s.length ∧ s.getD 0 0 = 48 ∧ s.getD 1 0 = 120 then
    from_string_hex n (s.drop 2) (List.replicate n 0) 0
  else
    from_string_dec n s (List.replicate n 0) 0

/-- Reference semantics: the numeric value denoted by a decimal digit
string (most significant digit first, digits given as character codes). -/
def decStringVal (s : List ℕ) : ℕ :=
  s.foldl (fun a c => 10 * a + (c - 48)) 0

/-- `internal::reciprocal_table_item(uint8_t d9)` (E.cpp 496-498):
`0x7fd00 / (0x100 | d9)`; the table of E.cpp 512 is this function tabulated
for `d9 = 0..255`. -/
def reciprocal_table_item (d9 : ℕ) : ℕ := 0x7fd00 / (0x100 + d9 % 256)

/-- `reciprocal_2by1(uint64_t d)` (E.cpp 519-537), for a normalized divisor
(`d >= 2^63`).  All intermediate `uint64_t` operations wrap modulo `W`;
`v1` is computed in 32-bit unsigned arithmetic (the C++ expression mixes
`int` and `uint32_t`, truncating to 32 bits);
`(v2 >> 1) & (0 - d0)` keeps `v2 >> 1` exactly when `d` is odd. -/
def reciprocal_2by1 (d : ℕ) : ℕ :=
  let d9 := d / 2 ^ 55
  let v0 := reciprocal_table_item (d9 - 256)
  let d40 := d / 2 ^ 24 + 1
  let v1 := (2 ^ 32 + v0 * 2 ^ 11 - (v0 * v0 * d40 / 2 ^ 40) % 2 ^ 32 - 1) % 2 ^ 32
  let v2 := (v1 * 2 ^ 13 % W + v1 * ((W + 2 ^ 60 - v1 * d40 % W) % W) % W / 2 ^ 47) % W
  let d0 := d % 2
  let d63 := d / 2 + d0
  let e := (W + (if d0 = 1 then v2 / 2 else 0) - v2 * d63 % W) % W
  let v3 := (v2 * e / W / 2 + v2 * 2 ^ 31 % W) % W
  let v4 := (2 * W + v3 - (v3 * d + d) / W - d) % W
  v4

/-- `reciprocal_3by2(uint128 d)` (E.cpp 539-563), divisor `d = {d0, d1}`. -/
def reciprocal_3by2 (d0 d1 : ℕ) : ℕ :=
  let v := reciprocal_2by1 d1
  let p := (d1 * v % W + d0) % W
  let vp :=
    if p < d0 then
      if d1 ≤ p then ((W + v - 2) % W, (2 * W + p - d1 - d1) % W)
      else ((W + v - 1) % W, (W + p - d1) % W)
    else (v, p)
  let t0 := vp.1 * d0 % W
  let t1 := vp.1 * d0 / W
  let p2 := (vp.2 + t1) % W
  if p2 < t1 then
    (if d1 ≤ p2 ∧ (d1 < p2 ∨ d0 ≤ t0) then (W + vp.1 - 2) % W
     else (W + vp.1 - 1) % W)
  else vp.1

/-- `udivrem_2by1(uint128 u, uint64_t d, uint64_t v)` (E.cpp 565-585);
`u = u0 + 2^64 * u1`; the `uint128` value `q` is a natural number modulo
`W^2`.  Returns `(quotient, remainder)`. -/
def udivrem_2by1 (u0 u1 d v : ℕ) : ℕ × ℕ :=
  let q := (v * u1 + (u0 + W * u1)) % W ^ 2
  let q0 := q % W
  let q1 := (q / W + 1) % W
  let r := (W + u0 - q1 * d % W) % W
  let qr := if q0 < r then ((W + q1 - 1) % W, (r + d) % W) else (q1, r)
  if d ≤ qr.2 then ((qr.1 + 1) % W, qr.2 - d) else qr

/-- `udivrem_3by2(u2, u1, u0, uint128 d, v)` (E.cpp 587-612); the divisor is
`d0 + 2^64 * d1`, the remainder is returned as a `uint128` value. -/
def udivrem_3by2 (u2 u1 u0 d0 d1 v : ℕ) : ℕ × ℕ :=
  let q := (v * u2 + (u1 + W * u2)) % W ^ 2
  let r1 := (W + u1 - q / W * d1 % W) % W
  let t := d0 * (q / W)
  let r := (2 * W ^ 2 + (u0 + W * r1) - t - (d0 + W * d1)) % W ^ 2
  let q1 := (q / W + 1) % W
  let qr := if q % W ≤ r / W then
      ((W + q1 - 1) % W, (r + (d0 + W * d1)) % W ^ 2)
    else (q1, r)
  if d0 + W * d1 ≤ qr.2 then ((qr.1 + 1) % W, qr.2 - (d0 + W * d1))
  else qr

/-- The word loop of `internal::udivrem_by1` (E.cpp 1406-1409), walking the
numerator words from most significant (heads first) to least. -/
def by1_loop (d v : ℕ) : List ℕ → ℕ → List ℕ × ℕ
  | [], rem => ([], rem)
  | w :: ws, rem =>
    let qr := udivrem_2by1 w rem d v
    let rest := by1_loop d v ws qr.2
    (qr.1 :: rest.1, rest.2)

/-- `internal::udivrem_by1(uint64_t u[], int len, uint64_t d)`
(E.cpp 1398-1412): the quotient replaces the numerator words (with the top
word reset to 0) and the remainder is returned. -/
def udivrem_by1 (u : List ℕ) (d : ℕ) : List ℕ × ℕ :=
  let v := reciprocal_2by1 d
  match u.reverse with
  | [] => ([], 0)
  | top :: rest =>
    let r := by1_loop d v rest top
    ((0 :: r.1).reverse, r.2)

/-- The word loop of `internal::udivrem_by2` (E.cpp 1424-1427). -/
def by2_loop (d0 d1 v : ℕ) : List ℕ → ℕ → List ℕ × ℕ
  | [], rem => ([], rem)
  | w :: ws, rem =>
    let qr := udivrem_3by2 (rem / W) (rem % W) w d0 d1 v
    let rest := by2_loop d0 d1 v ws qr.2
    (qr.1 :: rest.1, rest.2)

/-- `internal::udivrem_by2(uint64_t u[], int len, uint128 d)`
(E.cpp 1414-1430). -/
def udivrem_by2 (u : List ℕ) (d0 d1 : ℕ) : List ℕ × ℕ :=
  let v := reciprocal_3by2 d0 d1
  match u.reverse with
  | top1 :: top2 :: rest =>
    let r := by2_loop d0 d1 v rest (top2 + W * top1)
    ((0 :: 0 :: r.1).reverse, r.2)
  | _ => ([], 0)

/-- `internal::submul(r, x, y, len, multiplier)` (E.cpp 1443-1458): word
loop subtracting `multiplier * y` from `x`; returns the new window and the
final borrow word. -/
def submul : List ℕ → List ℕ → ℕ → ℕ → List ℕ × ℕ
  | x :: xs, y :: ys, mult, borrow =>
    let s := (W + x - borrow) % W
    let sc := if x < borrow then 1 else 0
    let p0 := y * mult % W
    let p1 := y * mult / W
    let t := (W + s - p0) % W
    let tc := if s < p0 then 1 else 0
    let rest := submul xs ys mult ((p1 + sc + tc) % W)
    (t :: rest.1, rest.2)
  | _, _, _, borrow => ([], borrow)

/-- One iteration (index `j`) of `internal::udivrem_knuth` (E.cpp 1468-1495)
on the numerator buffer `u` with divisor words `d` (exactly `dlen` words)
and precomputed reciprocal. -/
def knuth_step (u d : List ℕ) (recip j : ℕ) : List ℕ × ℕ :=
  let dlen := d.length
  let u2 := u.getD (j + dlen) 0
  let u1 := u.getD (j + dlen - 1) 0
  let u0 := u.getD (j + dlen - 2) 0
  let d1 := d.getD (dlen - 1) 0
  let d0 := d.getD (dlen - 2) 0
  if u1 = d0 ∧ u2 = d1 then
    -- division overflows: qhat = all ones, subtract qhat * d over dlen words
    let qhat := W - 1
    let sm := submul ((u.drop j).take dlen) d qhat 0
    (u.take j ++ sm.1 ++ [(W + u2 - sm.2) % W] ++ u.drop (j + dlen + 1), qhat)
  else
    let qr := udivrem_3by2 u2 u1 u0 d0 d1 recip
    let qhat := qr.1
    let rhat := qr.2
    let sm := submul ((u.drop j).take (dlen - 2)) (d.take (dlen - 2)) qhat 0
    let s1 := sub_with_carry (rhat % W) sm.2 false
    let s2 := sub_with_carry (rhat / W) s1.2.toNat false
    let u' := u.take j ++ sm.1 ++ [s1.1, s2.1] ++ u.drop (j + dlen)
    if s2.2 then
      -- qhat was one too large: add the divisor back once
      let qhat' := (W + qhat - 1) % W
      let ad := add_words ((u'.drop j).take (dlen - 1)) (d.take (dlen - 1)) false
      let top := (u'.getD (j + dlen - 1) 0 + d1 + ad.2.toNat) % W
      (u'.take j ++ ad.1 ++ [top] ++ u'.drop (j + dlen), qhat')
    else (u', qhat)

/-- The descending `j` loop of `internal::udivrem_knuth`; the fuel is the
number of remaining iterations (`j` runs from `fuel - 1` down to `0`).
Returns the final buffer and the quotient digits `q[0], ..., q[fuel-1]`
in little-endian order. -/
def knuth_go (d : List ℕ) (recip : ℕ) : ℕ → List ℕ → List ℕ × List ℕ
  | 0, u => (u, [])
  | j + 1, u =>
    let step := knuth_step u d recip j
    let rest := knuth_go d recip j step.1
    (rest.1, rest.2 ++ [step.2])

/-- `internal::udivrem_knuth(q, u, ulen, d, dlen)` (E.cpp 1460-1496). -/
def udivrem_knuth (u : List ℕ) (ulen : ℕ) (d : List ℕ) : List ℕ × List ℕ :=
  let dlen := d.length
  let recip := reciprocal_3by2 (d.getD (dlen - 2) 0) (d.getD (dlen - 1) 0)
  knuth_go d recip (ulen - dlen) u

/-- `count_significant_words` (E.cpp 1308-1315): index of the highest
nonzero word plus one. -/
def count_significant_words : List ℕ → ℕ
  | [] => 0
  | w :: ws =>
    let r := count_significant_words ws
    if r = 0 then (if w ≠ 0 then 1 else 0) else r + 1

/-- The generic `clz` loop `clz_generic(uint64_t)` (E.cpp 427-438); the
`__builtin_clzll` fast path must agree with it. -/
def clz_step (p : ℕ × ℕ) (i : ℕ) : ℕ × ℕ :=
  let s := 2 ^ i
  let hi := p.2 / 2 ^ s
  if hi ≠ 0 then (p.1 - s, hi) else p

/-- `clz_generic(uint64_t x)` (E.cpp 427-438): count of leading zero bits. -/
def clz64 (x : ℕ) : ℕ :=
  let r := [5, 4, 3, 2, 1, 0].foldl clz_step (64, x)
  r.1 - r.2

/-- One word of the normalization left shift (E.cpp 1378-1385):
word `i` becomes `(v[i] << shift) | (v[i-1] >> (64 - shift))`. -/
def shl_carry (shift : ℕ) : List ℕ → ℕ → List ℕ
  | [], _prev => []
  | w :: ws, prev =>
    (w * 2 ^ shift % W + prev / 2 ^ (64 - shift)) :: shl_carry shift ws w

/-- The result record of `internal::normalize` (E.cpp 1346-1353). -/
structure NormalizedDivArgs where
  divisor : List ℕ
  numerator : List ℕ
  num_divisor_words : ℕ
  num_numerator_words : ℕ
  shift : ℕ
deriving Repr, DecidableEq

/-- `internal::normalize(uint<M> numerator, uint<N> denominator)`
(E.cpp 1355-1396): trim significant word counts, shift both operands left
by `clz` of the divisor's top significant word (numerator into a buffer one
word wider), and skip the numerator's highest word if not significant. -/
def normalize (u v : List ℕ) : NormalizedDivArgs :=
  let m0 := count_significant_words u
  let n0 := count_significant_words v
  let shift := clz64 (v.getD (n0 - 1) 0)
  let vn := if shift ≠ 0 then shl_carry shift v 0 else v
  let un := if shift ≠ 0 then
      shl_carry shift u 0 ++ [u.getD (u.length - 1) 0 / 2 ^ (64 - shift)]
    else u ++ [0]
  let m := if un.getD m0 0 ≠ 0 ∨ vn.getD (n0 - 1) 0 ≤ un.getD (m0 - 1) 0
    then m0 + 1 else m0
  ⟨vn, un, n0, m, shift⟩

/-- `static_cast<uint<K*64>>` of a word list: truncate or zero-extend to
`k` words (E.cpp 846-851 and 864-870). -/
def static_cast_words (k : ℕ) (u : List ℕ) : List ℕ :=
  (u ++ List.replicate (k - u.length) 0).take k

/-- The generic `udivrem(const uint<M>& u, const uint<N>& v)`
(E.cpp 1500-1538): normalize, dispatch on the divisor's significant word
count, and un-normalize the remainder. -/
def udivrem_words (u v : List ℕ) : List ℕ × List ℕ :=
  let na := normalize u v
  if na.num_numerator_words ≤ na.num_divisor_words then
    (List.replicate u.length 0, static_cast_words v.length u)
  else if na.num_divisor_words = 1 then
    let r := udivrem_by1 (na.numerator.take na.num_numerator_words)
      (na.divisor.getD 0 0)
    (static_cast_words u.length
        (r.1 ++ na.numerator.drop na.num_numerator_words),
      from_u64 v.length (r.2 / 2 ^ na.shift))
  else if na.num_divisor_words = 2 then
    let r := udivrem_by2 (na.numerator.take na.num_numerator_words)
      (na.divisor.getD 0 0) (na.divisor.getD 1 0)
    (static_cast_words u.length
        (r.1 ++ na.numerator.drop na.num_numerator_words),
      static_cast_words v.length
        [r.2 / 2 ^ na.shift % W, r.2 / 2 ^ na.shift / W])
  else
    let len := na.num_numerator_words
    let kn := udivrem_knuth (na.numerator.take len) len
      (na.divisor.take na.num_divisor_words)
    let un' := kn.1 ++ na.numerator.drop len
    let rw := ((List.range (na.num_divisor_words - 1)).map (fun i =>
        if na.shift ≠ 0 then
          un'.getD i 0 / 2 ^ na.shift +
            un'.getD (i + 1) 0 * 2 ^ (64 - na.shift) % W
        else un'.getD i 0))
      ++ [un'.getD (na.num_divisor_words - 1) 0 / 2 ^ na.shift]
    (static_cast_words u.length kn.2, static_cast_words v.length rw)

-- ===== THEOREMS =====

theorem W_pos : 0 < W := by decide

theorem add_with_carry_spec (x y : ℕ) (c : Bool) (hx : x < W) (hy : y < W) :
    add_with_carry x y c = ((x + y + c.toNat) % W, decide (W ≤ x + y + c.toNat)) := by
  have hc : c.toNat = 0 ∨ c.toNat = 1 := by cases c <;> simp
  simp only [add_with_carry, Prod.mk.injEq]
  constructor
  · unfold W at *
    omega
  · rw [Bool.eq_iff_iff]
    simp only [Bool.or_eq_true, decide_eq_true_eq]
    unfold W at *
    omega

theorem sub_with_carry_spec (x y : ℕ) (c : Bool) (hx : x < W) (hy : y < W) :
    sub_with_carry x y c = ((W + x - y - c.toNat) % W, decide (x < y + c.toNat)) := by
  have hc : c.toNat = 0 ∨ c.toNat = 1 := by cases c <;> simp
  simp only [sub_with_carry, Prod.mk.injEq]
  constructor
  · unfold W at *
    omega
  · rw [Bool.eq_iff_iff]
    simp only [Bool.or_eq_true, decide_eq_true_eq]
    unfold W at *
    omega

theorem umul64_spec (x y : ℕ) (hx : x < W) (hy : y < W) :
    umul64 x y = (x * y % W, x * y / W) := by
  simp only [umul64, Prod.mk.injEq]
  have hxd : x = 2 ^ 32 * (x / 2 ^ 32) + x % 2 ^ 32 := (Nat.div_add_mod _ _).symm
  have hyd : y = 2 ^ 32 * (y / 2 ^ 32) + y % 2 ^ 32 := (Nat.div_add_mod _ _).symm
  have key : x * y =
      2 ^ 64 * (x / 2 ^ 32 * (y / 2 ^ 32)) +
        2 ^ 32 * (x / 2 ^ 32 * (y % 2 ^ 32)) +
        2 ^ 32 * (x % 2 ^ 32 * (y / 2 ^ 32)) +
        x % 2 ^ 32 * (y % 2 ^ 32) := by
    conv_lhs => rw [hxd, hyd]
    ring
  have hxl : x % 2 ^ 32 < 2 ^ 32 := Nat.mod_lt _ (by decide)
  have hyl : y % 2 ^ 32 < 2 ^ 32 := Nat.mod_lt _ (by decide)
  have hxh : x / 2 ^ 32 < 2 ^ 32 := by unfold W at hx; omega
  have hyh : y / 2 ^ 32 < 2 ^ 32 := by unfold W at hy; omega
  have b0 : x % 2 ^ 32 * (y % 2 ^ 32) < 2 ^ 32 * 2 ^ 32 :=
    Nat.mul_lt_mul_of_lt_of_lt hxl hyl
  have b1 : x / 2 ^ 32 * (y % 2 ^ 32) < 2 ^ 32 * 2 ^ 32 :=
    Nat.mul_lt_mul_of_lt_of_lt hxh hyl
  have b2 : x % 2 ^ 32 * (y / 2 ^ 32) < 2 ^ 32 * 2 ^ 32 :=
    Nat.mul_lt_mul_of_lt_of_lt hxl hyh
  have b3 : x / 2 ^ 32 * (y / 2 ^ 32) < 2 ^ 32 * 2 ^ 32 :=
    Nat.mul_lt_mul_of_lt_of_lt hxh hyh
  generalize x % 2 ^ 32 * (y % 2 ^ 32) = t0 at key b0 ⊢
  generalize x / 2 ^ 32 * (y % 2 ^ 32) = t1 at key b1 ⊢
  generalize x % 2 ^ 32 * (y / 2 ^ 32) = t2 at key b2 ⊢
  generalize x / 2 ^ 32 * (y / 2 ^ 32) = t3 at key b3 ⊢
  unfold W
  omega

theorem wordsLt_nil : wordsLt [] := by intro w hw; cases hw

theorem wordsLt_cons {w : ℕ} {l : List ℕ} (hw : w < W) (hl : wordsLt l) :
    wordsLt (w :: l) := by
  intro u hu
  simp only [List.mem_cons] at hu
  rcases hu with rfl | hu
  · exact hw
  · exact hl _ hu

theorem wordsLt_cons_iff {w : ℕ} {l : List ℕ} :
    wordsLt (w :: l) ↔ w < W ∧ wordsLt l := by
  constructor
  · intro h
    exact ⟨h w (by simp), fun u hu => h u (by simp [hu])⟩
  · intro h
    exact wordsLt_cons h.1 h.2

theorem limbsVal_lt_pow {l : List ℕ} (h : wordsLt l) :
    limbsVal l < W ^ l.length := by
  induction l with
  | nil => simp [limbsVal]
  | cons w l ih =>
    rw [wordsLt_cons_iff] at h
    have h2 := ih h.2
    have h3 : W * (limbsVal l + 1) ≤ W * W ^ l.length :=
      Nat.mul_le_mul_left _ h2
    have hw := h.1
    simp only [limbsVal, List.length_cons, pow_succ]
    unfold W at *
    omega

/-- One step of the word-wise addition loop rewritten arithmetically. -/
theorem add_words_cons (a b : ℕ) (xs ys : List ℕ) (k : Bool)
    (ha : a < W) (hb : b < W) :
    add_words (a :: xs) (b :: ys) k =
      ((a + b + k.toNat) % W ::
          (add_words xs ys (decide (W ≤ a + b + k.toNat))).1,
        (add_words xs ys (decide (W ≤ a + b + k.toNat))).2) := by
  have hk := Bool.toNat_le k
  have hstep : ((a + b) % W + k.toNat) % W = (a + b + k.toNat) % W := by
    unfold W at *
    omega
  have hcarry :
      (decide ((a + b + k.toNat) % W < k.toNat) || decide ((a + b) % W < a)) =
        decide (W ≤ a + b + k.toNat) := by
    rw [Bool.eq_iff_iff]
    simp only [Bool.or_eq_true, decide_eq_true_eq]
    unfold W at *
    omega
  simp only [add_words]
  rw [hstep, hcarry]

/-- One step of the word-wise subtraction loop rewritten arithmetically. -/
theorem sub_words_cons (a b : ℕ) (xs ys : List ℕ) (k : Bool)
    (ha : a < W) (hb : b < W) :
    sub_words (a :: xs) (b :: ys) k =
      ((2 * W + a - b - k.toNat) % W ::
          (sub_words xs ys (decide (a < b + k.toNat))).1,
        (sub_words xs ys (decide (a < b + k.toNat))).2) := by
  have hk := Bool.toNat_le k
  have hstep : (W + (W + a - b) % W - k.toNat) % W = (2 * W + a - b - k.toNat) % W := by
    unfold W at *
    omega
  have hcarry :
      (decide (a < b) || decide ((W + a - b) % W < k.toNat)) =
        decide (a < b + k.toNat) := by
    rw [Bool.eq_iff_iff]
    simp only [Bool.or_eq_true, decide_eq_true_eq]
    unfold W at *
    omega
  simp only [sub_words]
  rw [hstep, hcarry]

/-- Arithmetic core of one carry-propagation step: head word plus the scaled
tail equation. -/
theorem carry_chain_step (a b kN dN v L1 L2 X : ℕ)
    (ha : a < W) (hb : b < W) (hk : kN ≤ 1)
    (hd : dN = 1 ∧ W ≤ a + b + kN ∨ dN = 0 ∧ a + b + kN < W)
    (hih : v + X = L1 + L2 + dN) :
    (a + b + kN) % W + W * v + W * X = a + W * L1 + (b + W * L2) + kN := by
  have h1 : W * (v + X) = W * (L1 + L2 + dN) := by rw [hih]
  unfold W at *
  omega

/-- Arithmetic core of one borrow-propagation step. -/
theorem borrow_chain_step (a b kN dN v L1 L2 X : ℕ)
    (ha : a < W) (hb : b < W) (hk : kN ≤ 1)
    (hd : dN = 1 ∧ a < b + kN ∨ dN = 0 ∧ b + kN ≤ a)
    (hih : v + L2 + dN = L1 + X) :
    (2 * W + a - b - kN) % W + W * v + (b + W * L2) + kN =
      a + W * L1 + W * X := by
  have h1 : W * (v + L2 + dN) = W * (L1 + X) := by rw [hih]
  unfold W at *
  omega

theorem add_words_spec :
    ∀ (x y : List ℕ) (k : Bool), x.length = y.length → wordsLt x → wordsLt y →
      (add_words x y k).1.length = x.length ∧ wordsLt (add_words x y k).1 ∧
      limbsVal (add_words x y k).1 + W ^ x.length * (add_words x y k).2.toNat =
        limbsVal x + limbsVal y + k.toNat := by
  intro x
  induction x with
  | nil =>
    intro y k hlen _ _
    rcases y with _ | ⟨w, ys⟩
    · simp [add_words, limbsVal, wordsLt_nil]
    · simp at hlen
  | cons a xs ih =>
    intro y k hlen hx hy
    rcases y with _ | ⟨b, ys⟩
    · simp at hlen
    rw [wordsLt_cons_iff] at hx hy
    simp only [List.length_cons, Nat.succ.injEq] at hlen
    obtain ⟨ih1, ih2, ih3⟩ :=
      ih ys (decide (W ≤ a + b + k.toNat)) hlen hx.2 hy.2
    rw [add_words_cons a b xs ys k hx.1 hy.1]
    simp only [limbsVal, List.length_cons]
    refine ⟨by rw [ih1], wordsLt_cons (Nat.mod_lt _ W_pos) ih2, ?_⟩
    have hd : (decide (W ≤ a + b + k.toNat)).toNat = 1 ∧ W ≤ a + b + k.toNat ∨
        (decide (W ≤ a + b + k.toNat)).toNat = 0 ∧ a + b + k.toNat < W := by
      by_cases hw : W ≤ a + b + k.toNat <;> simp [hw] <;> omega
    rw [show W ^ (xs.length + 1) *
          (add_words xs ys (decide (W ≤ a + b + k.toNat))).2.toNat =
        W * (W ^ xs.length *
          (add_words xs ys (decide (W ≤ a + b + k.toNat))).2.toNat) from by ring]
    exact carry_chain_step a b k.toNat _ _ _ _ _ hx.1 hy.1 (Bool.toNat_le k) hd ih3

theorem sub_words_spec :
    ∀ (x y : List ℕ) (k : Bool), x.length = y.length → wordsLt x → wordsLt y →
      (sub_words x y k).1.length = x.length ∧ wordsLt (sub_words x y k).1 ∧
      limbsVal (sub_words x y k).1 + limbsVal y + k.toNat =
        limbsVal x + W ^ x.length * (sub_words x y k).2.toNat ∧
      (sub_words x y k).2 = decide (limbsVal x < limbsVal y + k.toNat) := by
  intro x
  induction x with
  | nil =>
    intro y k hlen _ _
    rcases y with _ | ⟨w, ys⟩
    · cases k <;> simp [sub_words, limbsVal, wordsLt_nil]
    · simp at hlen
  | cons a xs ih =>
    intro y k hlen hx hy
    rcases y with _ | ⟨b, ys⟩
    · simp at hlen
    rw [wordsLt_cons_iff] at hx hy
    simp only [List.length_cons, Nat.succ.injEq] at hlen
    obtain ⟨ih1, ih2, ih3, ih4⟩ :=
      ih ys (decide (a < b + k.toNat)) hlen hx.2 hy.2
    rw [sub_words_cons a b xs ys k hx.1 hy.1]
    simp only [limbsVal, List.length_cons]
    have hd : (decide (a < b + k.toNat)).toNat = 1 ∧ a < b + k.toNat ∨
        (decide (a < b + k.toNat)).toNat = 0 ∧ b + k.toNat ≤ a := by
      by_cases hw : a < b + k.toNat <;> simp [hw] <;> omega
    refine ⟨by rw [ih1], wordsLt_cons (Nat.mod_lt _ W_pos) ih2, ?_, ?_⟩
    · rw [show W ^ (xs.length + 1) *
            (sub_words xs ys (decide (a < b + k.toNat))).2.toNat =
          W * (W ^ xs.length *
            (sub_words xs ys (decide (a < b + k.toNat))).2.toNat) from by ring]
      exact borrow_chain_step a b k.toNat _ _ _ _ _ hx.1 hy.1
        (Bool.toNat_le k) hd ih3
    · rw [ih4, Bool.eq_iff_iff]
      simp only [decide_eq_true_eq]
      have hk := Bool.toNat_le k
      have ha := hx.1
      have hb := hy.1
      unfold W at *
      omega

theorem uadd_spec {n : ℕ} {x y : List ℕ}
    (hxl : x.length = n) (hyl : y.length = n) (hx : wordsLt x) (hy : wordsLt y) :
    (uadd x y).length = n ∧ wordsLt (uadd x y) ∧
      limbsVal (uadd x y) = (limbsVal x + limbsVal y) % W ^ n := by
  obtain ⟨h1, h2, h3⟩ := add_words_spec x y false (hxl.trans hyl.symm) hx hy
  simp only [Bool.toNat_false, Nat.add_zero, hxl] at h1 h3
  refine ⟨h1, h2, ?_⟩
  unfold uadd
  have hlt : limbsVal (add_words x y false).1 < W ^ n := by
    have := limbsVal_lt_pow h2
    rwa [h1] at this
  have hxv : limbsVal x < W ^ n := by have := limbsVal_lt_pow hx; rwa [hxl] at this
  have hyv : limbsVal y < W ^ n := by have := limbsVal_lt_pow hy; rwa [hyl] at this
  rcases hc : (add_words x y false).2 with _ | _ <;> rw [hc] at h3
  · simp only [Bool.toNat_false, Nat.mul_zero, Nat.add_zero] at h3
    rw [h3, Nat.mod_eq_of_lt]
    omega
  · simp only [Bool.toNat_true, Nat.mul_one] at h3
    have hge : W ^ n ≤ limbsVal x + limbsVal y := by omega
    rw [Nat.mod_eq_sub_mod hge, Nat.mod_eq_of_lt (by omega)]
    omega

theorem usub_spec {n : ℕ} {x y : List ℕ}
    (hxl : x.length = n) (hyl : y.length = n) (hx : wordsLt x) (hy : wordsLt y) :
    (usub x y).length = n ∧ wordsLt (usub x y) ∧
      limbsVal (usub x y) = (W ^ n + limbsVal x - limbsVal y) % W ^ n := by
  obtain ⟨h1, h2, h3, _⟩ := sub_words_spec x y false (hxl.trans hyl.symm) hx hy
  simp only [Bool.toNat_false, Nat.add_zero, hxl] at h1 h3
  refine ⟨h1, h2, ?_⟩
  unfold usub
  have hlt : limbsVal (sub_words x y false).1 < W ^ n := by
    have := limbsVal_lt_pow h2
    rwa [h1] at this
  have hxv : limbsVal x < W ^ n := by have := limbsVal_lt_pow hx; rwa [hxl] at this
  have hyv : limbsVal y < W ^ n := by have := limbsVal_lt_pow hy; rwa [hyl] at this
  rcases hc : (sub_words x y false).2 with _ | _ <;> rw [hc] at h3
  · simp only [Bool.toNat_false, Nat.mul_zero, Nat.add_zero] at h3
    have hge : limbsVal y ≤ limbsVal x := by omega
    have : W ^ n + limbsVal x - limbsVal y =
        W ^ n + (limbsVal x - limbsVal y) := by omega
    rw [this, Nat.add_mod_left, Nat.mod_eq_of_lt (by omega)]
    omega
  · simp only [Bool.toNat_true, Nat.mul_one] at h3
    rw [Nat.mod_eq_of_lt (by omega)]
    omega

theorem ult_spec {x y : List ℕ}
    (hlen : x.length = y.length) (hx : wordsLt x) (hy : wordsLt y) :
    ult x y = decide (limbsVal x < limbsVal y) := by
  obtain ⟨_, _, _, h4⟩ := sub_words_spec x y false hlen hx hy
  simpa [ult] using h4

theorem limbsVal_replicate_zero (n : ℕ) : limbsVal (List.replicate n 0) = 0 := by
  induction n with
  | zero => rfl
  | succ n ih => simp [List.replicate, limbsVal, ih]

theorem wordsLt_replicate_zero (n : ℕ) : wordsLt (List.replicate n 0) := by
  intro w hw
  rw [List.eq_of_mem_replicate hw]
  exact W_pos

theorem getD_replicate_zero (n i : ℕ) : (List.replicate n 0).getD i 0 = 0 := by
  induction n generalizing i with
  | zero => simp [List.replicate]
  | succ n ih =>
    cases i with
    | zero => simp [List.replicate]
    | succ i => simpa [List.replicate] using ih i

/-- A word product plus two words fits in 128 bits. -/
theorem word_fma_lt (a b c d : ℕ) (ha : a < W) (hb : b < W) (hc : c < W)
    (hd : d < W) : a * b + c + d < W ^ 2 := by
  have h1 : a * b ≤ (W - 1) * (W - 1) :=
    Nat.mul_le_mul (by omega) (by omega)
  have h2 : (W - 1) * (W - 1) = 340282366920938463426481119284349108225 := by
    norm_num [W]
  have h3 : W ^ 2 = 340282366920938463463374607431768211456 := by
    norm_num [W]
  unfold W at *
  omega

theorem umul_full_col_spec :
    ∀ (xs ps : List ℕ) (yj k : ℕ), wordsLt xs → wordsLt ps → yj < W → k < W →
      xs.length < ps.length → ps.getD xs.length 0 = 0 →
      (umul_full_col yj xs ps k).length = ps.length ∧
      wordsLt (umul_full_col yj xs ps k) ∧
      limbsVal (umul_full_col yj xs ps k) = limbsVal ps + yj * limbsVal xs + k ∧
      ∀ i, xs.length < i → (umul_full_col yj xs ps k).getD i 0 = ps.getD i 0 := by
  intro xs
  induction xs with
  | nil =>
    intro ps yj k _ hps hyj hk hlen hzero
    rcases ps with _ | ⟨pi, ps'⟩
    · simp at hlen
    rw [wordsLt_cons_iff] at hps
    simp only [List.length_nil, List.getD_cons_zero] at hzero
    subst hzero
    simp only [umul_full_col, limbsVal, List.length_cons]
    refine ⟨by simp, wordsLt_cons hk hps.2, by ring, ?_⟩
    intro i hi
    rcases i with _ | i
    · omega
    · simp [List.getD_cons_succ]
  | cons xi xs' ih =>
    intro ps yj k hxs hps hyj hk hlen hzero
    rcases ps with _ | ⟨pi, ps'⟩
    · simp at hlen
    rw [wordsLt_cons_iff] at hxs hps
    simp only [List.length_cons, Nat.succ_lt_succ_iff] at hlen
    simp only [List.length_cons, List.getD_cons_succ] at hzero
    have hfit : xi * yj + pi + k < W ^ 2 :=
      word_fma_lt xi yj pi k hxs.1 hyj hps.1 hk
    have ht : (xi * yj + pi + k) % W ^ 2 = xi * yj + pi + k :=
      Nat.mod_eq_of_lt hfit
    have hdivlt : (xi * yj + pi + k) / W < W :=
      Nat.div_lt_of_lt_mul (by rw [← pow_two]; exact hfit)
    obtain ⟨ih1, ih2, ih3, ih4⟩ := ih ps' yj ((xi * yj + pi + k) / W)
      hxs.2 hps.2 hyj hdivlt hlen hzero
    simp only [umul_full_col, ht, limbsVal, List.length_cons]
    refine ⟨by rw [ih1], wordsLt_cons (Nat.mod_lt _ W_pos) ih2, ?_, ?_⟩
    · rw [ih3]
      have hsplit : (xi * yj + pi + k) % W + W * ((xi * yj + pi + k) / W) =
          xi * yj + pi + k := Nat.mod_add_div _ _
      calc (xi * yj + pi + k) % W +
            W * (limbsVal ps' + yj * limbsVal xs' + (xi * yj + pi + k) / W)
          = ((xi * yj + pi + k) % W + W * ((xi * yj + pi + k) / W)) +
              W * limbsVal ps' + yj * (W * limbsVal xs') := by ring
        _ = (xi * yj + pi + k) +
              W * limbsVal ps' + yj * (W * limbsVal xs') := by rw [hsplit]
        _ = pi + W * limbsVal ps' + yj * (xi + W * limbsVal xs') + k := by ring
    · intro i hi
      rcases i with _ | i
      · omega
      · simp only [List.getD_cons_succ]
        exact ih4 i (by omega)

theorem limbsVal_cons (w : ℕ) (l : List ℕ) :
    limbsVal (w :: l) = w + W * limbsVal l := rfl

theorem op_mul_col_spec :
    ∀ (xs ps : List ℕ) (yj k : ℕ), wordsLt xs → wordsLt ps → yj < W → k < W →
      ps.length ≤ xs.length →
      (op_mul_col yj xs ps k).length = ps.length ∧
      wordsLt (op_mul_col yj xs ps k) ∧
      limbsVal (op_mul_col yj xs ps k) ≡
        limbsVal ps + yj * limbsVal xs + k [MOD W ^ ps.length] := by
  intro xs
  induction xs with
  | nil =>
    intro ps yj k _ _ _ _ hlen
    have hps : ps = [] := List.length_eq_zero.mp (by simpa using hlen)
    subst hps
    exact ⟨rfl, wordsLt_nil, by simpa using Nat.modEq_one⟩
  | cons xi xs' ih =>
    intro ps yj k hxs hps hyj hk hlen
    rw [wordsLt_cons_iff] at hxs
    rcases ps with _ | ⟨pi, ps'⟩
    · exact ⟨rfl, wordsLt_nil, by simpa using Nat.modEq_one⟩
    rw [wordsLt_cons_iff] at hps
    rcases ps' with _ | ⟨p2, ps''⟩
    · -- last word: p[n-1] += x[n-j-1] * y[j] + k, with 64-bit wraparound
      refine ⟨rfl, wordsLt_cons (Nat.mod_lt _ W_pos) wordsLt_nil, ?_⟩
      simp only [limbsVal, List.length_cons, List.length_nil, pow_one,
        Nat.mul_zero, Nat.add_zero]
      have h3 : pi + yj * (xi + W * limbsVal xs') + k =
          pi + (xi * yj + k) + yj * limbsVal xs' * W := by ring
      rw [h3]
      unfold Nat.ModEq
      rw [pow_succ, pow_zero, one_mul, Nat.add_mul_mod_self_right,
        Nat.mod_mod_of_dvd _ dvd_rfl]
    · -- interior word: t = umul(x[i], y[j]) + p[i+j] + k
      simp only [List.length_cons, Nat.succ_le_succ_iff] at hlen
      have hfit : xi * yj + pi + k < W ^ 2 :=
        word_fma_lt xi yj pi k hxs.1 hyj hps.1 hk
      have ht : (xi * yj + pi + k) % W ^ 2 = xi * yj + pi + k :=
        Nat.mod_eq_of_lt hfit
      have hdivlt : (xi * yj + pi + k) / W < W :=
        Nat.div_lt_of_lt_mul (by rw [← pow_two]; exact hfit)
      obtain ⟨ih1, ih2, ih3⟩ := ih (p2 :: ps'') yj ((xi * yj + pi + k) / W)
        hxs.2 hps.2 hyj hdivlt (by simpa using hlen)
      simp only [op_mul_col, ht]
      refine ⟨by simp [ih1], wordsLt_cons (Nat.mod_lt _ W_pos) ih2, ?_⟩
      have h1 : W * limbsVal (op_mul_col yj xs' (p2 :: ps'') ((xi * yj + pi + k) / W)) ≡
          W * (limbsVal (p2 :: ps'') + yj * limbsVal xs' + (xi * yj + pi + k) / W)
            [MOD W * W ^ (p2 :: ps'').length] := Nat.ModEq.mul_left' W ih3
      rw [← pow_succ'] at h1
      have h2 := h1.add_left ((xi * yj + pi + k) % W)
      have h3 : (xi * yj + pi + k) % W +
          W * (limbsVal (p2 :: ps'') + yj * limbsVal xs' + (xi * yj + pi + k) / W) =
          limbsVal (pi :: p2 :: ps'') + yj * limbsVal (xi :: xs') + k := by
        have hm : (xi * yj + pi + k) % W + W * ((xi * yj + pi + k) / W) =
            xi * yj + pi + k := Nat.mod_add_div _ _
        rw [show limbsVal (pi :: p2 :: ps'') = pi + W * limbsVal (p2 :: ps'')
            from rfl,
          show limbsVal (xi :: xs') = xi + W * limbsVal xs' from rfl]
        calc (xi * yj + pi + k) % W +
              W * (limbsVal (p2 :: ps'') + yj * limbsVal xs' +
                (xi * yj + pi + k) / W)
            = ((xi * yj + pi + k) % W + W * ((xi * yj + pi + k) / W)) +
                W * limbsVal (p2 :: ps'') + yj * (W * limbsVal xs') := by ring
          _ = (xi * yj + pi + k) + W * limbsVal (p2 :: ps'') +
                yj * (W * limbsVal xs') := by rw [hm]
          _ = pi + W * limbsVal (p2 :: ps'') +
                yj * (xi + W * limbsVal xs') + k := by ring
      rw [limbsVal_cons]
      calc (xi * yj + pi + k) % W +
            W * limbsVal (op_mul_col yj xs' (p2 :: ps'') ((xi * yj + pi + k) / W))
          ≡ (xi * yj + pi + k) % W +
              W * (limbsVal (p2 :: ps'') + yj * limbsVal xs' +
                (xi * yj + pi + k) / W) [MOD W ^ (p2 :: ps'').length.succ] := h2
        _ = limbsVal (pi :: p2 :: ps'') + yj * limbsVal (xi :: xs') + k := h3

theorem umul_full_aux_spec :
    ∀ (ys p x : List ℕ), wordsLt x → wordsLt ys → wordsLt p →
      x.length + ys.length ≤ p.length →
      (∀ i, x.length ≤ i → p.getD i 0 = 0) →
      (umul_full_aux x ys p).length = p.length ∧
      wordsLt (umul_full_aux x ys p) ∧
      limbsVal (umul_full_aux x ys p) = limbsVal p + limbsVal x * limbsVal ys := by
  intro ys
  induction ys with
  | nil =>
    intro p x _ _ hp _ _
    exact ⟨rfl, hp, by simp [umul_full_aux, limbsVal]⟩
  | cons yj ys' ih =>
    intro p x hx hys hp hlen hzero
    rw [wordsLt_cons_iff] at hys
    obtain ⟨hc1, hc2, hc3, hc4⟩ := umul_full_col_spec x p yj 0 hx hp hys.1
      W_pos (by simp at hlen; omega) (hzero x.length le_rfl)
    rcases hp' : umul_full_col yj x p 0 with _ | ⟨p0, rest⟩
    · rw [hp'] at hc1
      simp at hc1 hlen
      omega
    rw [hp'] at hc1 hc2 hc3 hc4
    rw [wordsLt_cons_iff] at hc2
    have hrestlen : rest.length + 1 = p.length := by simpa using hc1
    obtain ⟨ih1, ih2, ih3⟩ := ih rest x hx hys.2 hc2.2
      (by simp at hlen; omega)
      (by
        intro i hi
        have h1 : (p0 :: rest).getD (i + 1) 0 = rest.getD i 0 :=
          List.getD_cons_succ
        rw [← h1, hc4 (i + 1) (by omega), hzero (i + 1) (by omega)])
    simp only [umul_full_aux, hp']
    rw [limbsVal_cons] at hc3
    refine ⟨by simp [ih1]; omega, wordsLt_cons hc2.1 ih2, ?_⟩
    rw [limbsVal_cons, ih3,
      show limbsVal (yj :: ys') = yj + W * limbsVal ys' from rfl]
    calc p0 + W * (limbsVal rest + limbsVal x * limbsVal ys')
        = (p0 + W * limbsVal rest) + W * (limbsVal x * limbsVal ys') := by ring
      _ = (limbsVal p + yj * limbsVal x + 0) +
            W * (limbsVal x * limbsVal ys') := by rw [hc3]
      _ = limbsVal p + limbsVal x * (yj + W * limbsVal ys') := by ring

theorem umul_full_spec (x y : List ℕ) (hlen : y.length = x.length)
    (hx : wordsLt x) (hy : wordsLt y) :
    (umul_full x y).length = 2 * x.length ∧ wordsLt (umul_full x y) ∧
    limbsVal (umul_full x y) = limbsVal x * limbsVal y := by
  obtain ⟨h1, h2, h3⟩ := umul_full_aux_spec y (List.replicate (2 * x.length) 0)
    x hx hy (wordsLt_replicate_zero _)
    (by simp [hlen]; omega)
    (fun i _ => getD_replicate_zero _ _)
  refine ⟨by simpa using h1, h2, ?_⟩
  rw [umul_full, h3, limbsVal_replicate_zero]
  omega

theorem op_mul_aux_spec :
    ∀ (ys p x : List ℕ), wordsLt x → wordsLt ys → wordsLt p →
      p.length ≤ x.length →
      (op_mul_aux x ys p).length = p.length ∧ wordsLt (op_mul_aux x ys p) ∧
      limbsVal (op_mul_aux x ys p) ≡
        limbsVal p + limbsVal x * limbsVal ys [MOD W ^ p.length] := by
  intro ys
  induction ys with
  | nil =>
    intro p x _ _ hp _
    refine ⟨rfl, hp, ?_⟩
    simp only [op_mul_aux, limbsVal, Nat.mul_zero, Nat.add_zero]
    rfl
  | cons yj ys' ih =>
    intro p x hx hys hp hlen
    rw [wordsLt_cons_iff] at hys
    obtain ⟨hc1, hc2, hc3⟩ := op_mul_col_spec x p yj 0 hx hp hys.1 W_pos hlen
    rcases hp' : op_mul_col yj x p 0 with _ | ⟨p0, rest⟩
    · rw [hp'] at hc1
      have hp0 : p.length = 0 := by simpa using hc1.symm
      simp only [op_mul_aux, hp', hp0]
      exact ⟨by simp [hp0], wordsLt_nil, by simpa using Nat.modEq_one⟩
    rw [hp'] at hc1 hc2 hc3
    rw [wordsLt_cons_iff] at hc2
    have hrestlen : rest.length + 1 = p.length := by simpa using hc1
    obtain ⟨ih1, ih2, ih3⟩ := ih rest x hx hys.2 hc2.2 (by omega)
    simp only [op_mul_aux, hp']
    refine ⟨by simp [ih1]; omega, wordsLt_cons hc2.1 ih2, ?_⟩
    have hA := Nat.ModEq.mul_left' W ih3
    rw [← pow_succ'] at hA
    have h2 := hA.add_left p0
    rw [limbsVal_cons, ← hrestlen] at hc3
    have h4 := (hc3.add_right
      (W * (limbsVal x * limbsVal ys')))
    rw [limbsVal_cons, ← hrestlen,
      show limbsVal (yj :: ys') = yj + W * limbsVal ys' from rfl,
      show limbsVal p + limbsVal x * (yj + W * limbsVal ys') =
        (limbsVal p + yj * limbsVal x + 0) +
          W * (limbsVal x * limbsVal ys') from by ring]
    refine h2.trans ?_
    rw [show p0 + W * (limbsVal rest + limbsVal x * limbsVal ys') =
      (p0 + W * limbsVal rest) + W * (limbsVal x * limbsVal ys') from by ring]
    exact h4

theorem op_mul_spec (x y : List ℕ) (hlen : y.length = x.length)
    (hx : wordsLt x) (hy : wordsLt y) :
    (op_mul x y).length = x.length ∧ wordsLt (op_mul x y) ∧
    limbsVal (op_mul x y) = limbsVal x * limbsVal y % W ^ x.length := by
  obtain ⟨h1, h2, h3⟩ := op_mul_aux_spec y (List.replicate x.length 0)
    x hx hy (wordsLt_replicate_zero _) (by simp)
  rw [limbsVal_replicate_zero, Nat.zero_add, List.length_replicate] at h3
  rw [List.length_replicate] at h1
  have hval : limbsVal (op_mul_aux x y (List.replicate x.length 0)) <
      W ^ x.length := by
    have := limbsVal_lt_pow h2
    rwa [h1] at this
  have h5 := h3
  unfold Nat.ModEq at h5
  rw [Nat.mod_eq_of_lt hval] at h5
  exact ⟨h1, h2, h5⟩

theorem limbsVal_eq_zero {l : List ℕ} {n : ℕ} (h : limbsVal l = 0)
    (hl : l.length = n) : l = List.replicate n 0 := by
  induction l generalizing n with
  | nil =>
    simp only [List.length_nil] at hl
    subst hl
    rfl
  | cons w l ih =>
    simp only [limbsVal] at h
    have hw : w = 0 ∧ limbsVal l = 0 := by
      have := W_pos
      constructor <;> nlinarith
    rcases n with _ | n
    · simp at hl
    · simp only [List.length_cons, Nat.succ.injEq] at hl
      rw [List.replicate_succ, hw.1, ih hw.2 hl]

theorem limbsVal_replicate_allones (n : ℕ) :
    limbsVal (List.replicate n (W - 1)) = W ^ n - 1 := by
  induction n with
  | zero => simp [limbsVal]
  | succ n ih =>
    rw [List.replicate_succ, limbsVal_cons, ih, pow_succ]
    have h1 : 1 ≤ W ^ n := Nat.one_le_pow _ _ W_pos
    have h2 : W * (W ^ n - 1) = W * W ^ n - W := by
      rw [Nat.mul_sub]
      omega
    unfold W at *
    omega

theorem wordsLt_replicate_allones (n : ℕ) :
    wordsLt (List.replicate n (W - 1)) := by
  intro w hw
  rw [List.eq_of_mem_replicate hw]
  have := W_pos
  omega

theorem from_u64_length (n v : ℕ) : (from_u64 n v).length = n - 1 + 1 := by
  simp [from_u64]

theorem from_u64_val (n v : ℕ) : limbsVal (from_u64 n v) = v := by
  simp [from_u64, limbsVal_cons, limbsVal_replicate_zero]

theorem wordsLt_from_u64 (n v : ℕ) (hv : v < W) : wordsLt (from_u64 n v) := by
  refine wordsLt_cons hv ?_
  exact wordsLt_replicate_zero _

/-- C3: for every width and all values `x`, `y`, the operators `+`, binary
`-` and `*` return the exact mathematical sum, difference and product
reduced modulo `2^N` (they are total functions), and the all-ones value
plus 1 equals 0. -/
theorem addsubmul_mod_spec (n : ℕ) (x y : List ℕ)
    (hxl : x.length = n) (hyl : y.length = n)
    (hx : wordsLt x) (hy : wordsLt y) :
    limbsVal (uadd x y) = (limbsVal x + limbsVal y) % W ^ n ∧
    limbsVal (usub x y) = (W ^ n + limbsVal x - limbsVal y) % W ^ n ∧
    limbsVal (op_mul x y) = limbsVal x * limbsVal y % W ^ n ∧
    uadd (List.replicate n (W - 1)) (from_u64 n 1) = List.replicate n 0 := by
  refine ⟨(uadd_spec hxl hyl hx hy).2.2, (usub_spec hxl hyl hx hy).2.2,
    ?_, ?_⟩
  · have := (op_mul_spec x y (hyl.trans hxl.symm) hx hy).2.2
    rwa [hxl] at this
  · rcases Nat.eq_zero_or_pos n with hn | hn
    · subst hn
      rfl
    have hl1 : (List.replicate n (W - 1)).length = n := by simp
    have hl2 : (from_u64 n 1).length = n := by rw [from_u64_length]; omega
    obtain ⟨g1, g2, g3⟩ := uadd_spec hl1 hl2
      (wordsLt_replicate_allones n) (wordsLt_from_u64 n 1 (by decide))
    rw [limbsVal_replicate_allones, from_u64_val] at g3
    have h1 : 1 ≤ W ^ n := Nat.one_le_pow _ _ W_pos
    rw [show W ^ n - 1 + 1 = W ^ n from by omega, Nat.mod_self] at g3
    exact limbsVal_eq_zero g3 g1

/-- C3 witness at width 128 (`n = 2` words). -/
theorem addsubmul_mod_spec_witness :
    limbsVal (uadd [5, 0] [7, 0]) = (limbsVal [5, 0] + limbsVal [7, 0]) % W ^ 2 ∧
    limbsVal (usub [5, 0] [7, 0]) = (W ^ 2 + limbsVal [5, 0] - limbsVal [7, 0]) % W ^ 2 ∧
    limbsVal (op_mul [5, 0] [7, 0]) = limbsVal [5, 0] * limbsVal [7, 0] % W ^ 2 ∧
    uadd (List.replicate 2 (W - 1)) (from_u64 2 1) = List.replicate 2 0 :=
  addsubmul_mod_spec 2 [5, 0] [7, 0] rfl rfl (by unfold wordsLt; decide)
    (by unfold wordsLt; decide)

/-- C8: `x < y` is decided by the borrow of `sub_with_carry(x, y)`, this
coincides with the unsigned-magnitude order on the denoted values, and the
`uint128` and `uint256` comparison fast paths agree with the borrow-based
definition on all (bounded) inputs. -/
theorem lt_is_borrow_spec (n : ℕ) (x y : List ℕ)
    (hxl : x.length = n) (hyl : y.length = n)
    (hx : wordsLt x) (hy : wordsLt y) :
    (ult x y = decide (limbsVal x < limbsVal y)) ∧
    (∀ x0 x1 y0 y1 : ℕ, x0 < W → x1 < W → y0 < W → y1 < W →
      ult128 x0 x1 y0 y1 = ult [x0, x1] [y0, y1]) ∧
    (∀ x0 x1 x2 x3 y0 y1 y2 y3 : ℕ,
      x0 < W → x1 < W → x2 < W → x3 < W →
      y0 < W → y1 < W → y2 < W → y3 < W →
      ult256 x0 x1 x2 x3 y0 y1 y2 y3 =
        ult [x0, x1, x2, x3] [y0, y1, y2, y3]) := by
  refine ⟨ult_spec (hxl.trans hyl.symm) hx hy, ?_, ?_⟩
  · intro x0 x1 y0 y1 h0 h1 h2 h3
    rw [@ult_spec [x0, x1] [y0, y1] rfl
        (by simp [wordsLt_cons_iff, h0, h1, wordsLt_nil])
        (by simp [wordsLt_cons_iff, h2, h3, wordsLt_nil]),
      ult128, Bool.eq_iff_iff]
    simp only [Bool.or_eq_true, Bool.and_eq_true, decide_eq_true_eq,
      limbsVal, Nat.mul_zero, Nat.add_zero]
    unfold W at *
    omega
  · intro x0 x1 x2 x3 y0 y1 y2 y3 h0 h1 h2 h3 h4 h5 h6 h7
    rw [@ult_spec [x0, x1, x2, x3] [y0, y1, y2, y3] rfl
        (by simp [wordsLt_cons_iff, h0, h1, h2, h3, wordsLt_nil])
        (by simp [wordsLt_cons_iff, h4, h5, h6, h7, wordsLt_nil]),
      ult256, ult128, ult128, eq128, Bool.eq_iff_iff]
    simp only [Bool.or_eq_true, Bool.and_eq_true, decide_eq_true_eq,
      limbsVal, Nat.mul_zero, Nat.add_zero]
    unfold W at *
    omega

/-- C8 witness. -/
theorem lt_is_borrow_spec_witness :
    ult [5, 0] [3, 1] = decide (limbsVal [5, 0] < limbsVal [3, 1]) :=
  (lt_is_borrow_spec 2 [5, 0] [3, 1] rfl rfl (by unfold wordsLt; decide)
    (by unfold wordsLt; decide)).1

theorem lor_eq_zero {a b : ℕ} : a ||| b = 0 ↔ a = 0 ∧ b = 0 := by
  constructor
  · intro h
    have ht : ∀ i, a.testBit i = false ∧ b.testBit i = false := by
      intro i
      have h2 := congrArg (fun t => t.testBit i) h
      simpa [Nat.testBit_lor] using h2
    exact ⟨Nat.zero_of_testBit_eq_false (fun i => (ht i).1),
      Nat.zero_of_testBit_eq_false (fun i => (ht i).2)⟩
  · rintro ⟨rfl, rfl⟩
    rfl

theorem foldl_lor_eq_zero :
    ∀ (l : List ℕ) (a : ℕ),
      l.foldl (fun a b => a ||| b) a = 0 ↔ a = 0 ∧ ∀ w ∈ l, w = 0 := by
  intro l
  induction l with
  | nil => simp
  | cons w l ih =>
    intro a
    simp only [List.foldl_cons, ih, lor_eq_zero, List.mem_cons]
    constructor
    · rintro ⟨⟨ha, hw⟩, hl⟩
      exact ⟨ha, fun u hu => hu.elim (fun h => h ▸ hw) (hl u)⟩
    · rintro ⟨ha, hl⟩
      exact ⟨⟨ha, hl w (Or.inl rfl)⟩, fun u hu => hl u (Or.inr hu)⟩

/-- C5: shifting by at least `N` bits yields zero, in both directions, and a
shift whose amount is a `uint<N>` with some word above word 0 nonzero also
yields zero. -/
theorem shift_ge_width_spec (n : ℕ) (x : List ℕ) (hxl : x.length = n) :
    (∀ s : ℕ, 64 * n ≤ s →
      shl_words x s = List.replicate n 0 ∧
      shr_words x s = List.replicate n 0) ∧
    (∀ sh : List ℕ, (∃ w ∈ sh.drop 1, w ≠ 0) →
      shl_words_u x sh = List.replicate n 0 ∧
      shr_words_u x sh = List.replicate n 0) := by
  constructor
  · intro s hs
    rw [shl_words, shr_words, hxl, if_pos hs, if_pos hs]
    exact ⟨rfl, rfl⟩
  · intro sh hsh
    have hfold : high_words_fold sh ≠ 0 := by
      rw [high_words_fold]
      intro h
      obtain ⟨w, hw, hwne⟩ := hsh
      exact hwne (((foldl_lor_eq_zero _ _).mp h).2 w hw)
    rw [shl_words_u, shr_words_u, if_pos hfold, if_pos hfold, hxl]
    exact ⟨rfl, rfl⟩

/-- C5 witness at width 128. -/
theorem shift_ge_width_spec_witness :
    shl_words [3, 4] 128 = List.replicate 2 0 ∧
    shr_words [3, 4] 128 = List.replicate 2 0 ∧
    shl_words_u [3, 4] [7, 1] = List.replicate 2 0 ∧
    shr_words_u [3, 4] [7, 1] = List.replicate 2 0 := by
  obtain ⟨h1, h2⟩ := shift_ge_width_spec 2 [3, 4] rfl
  obtain ⟨g1, g2⟩ := h1 128 (by omega)
  obtain ⟨g3, g4⟩ := h2 [7, 1] ⟨1, by decide, by decide⟩
  exact ⟨g1, g2, g3, g4⟩

theorem decFold_modEq (s : List ℕ) :
    ∀ a b m : ℕ, a ≡ b [MOD m] →
      s.foldl (fun a c => 10 * a + (c - 48)) a ≡
        s.foldl (fun a c => 10 * a + (c - 48)) b [MOD m] := by
  induction s with
  | nil => intro a b m h; exact h
  | cons c s ih =>
    intro a b m h
    simp only [List.foldl_cons]
    exact ih _ _ m ((h.mul_left 10).add_right (c - 48))

theorem from_dec_digit_ok {c d : ℕ} (h : from_dec_digit c = Except.ok d) :
    d = c - 48 ∧ d ≤ 9 := by
  unfold from_dec_digit at h
  split at h
  · cases h
  · rename_i hc
    cases h
    omega

theorem from_string_dec_ok :
    ∀ (s x : List ℕ) (k n : ℕ) (r : List ℕ), 0 < n →
      x.length = n → wordsLt x →
      from_string_dec n s x k = Except.ok r →
      r.length = n ∧ wordsLt r ∧
      limbsVal r =
        s.foldl (fun a c => 10 * a + (c - 48)) (limbsVal x) % W ^ n := by
  intro s
  induction s with
  | nil =>
    intro x k n r hn hxl hx h
    cases h
    exact ⟨hxl, hx, by
      rw [List.foldl_nil,
        Nat.mod_eq_of_lt (hxl ▸ limbsVal_lt_pow hx)]⟩
  | cons c s ih =>
    intro x k n r hn hxl hx h
    rw [from_string_dec] at h
    split at h
    · cases h
    rcases hdig : from_dec_digit c with e | d
    · rw [hdig] at h
      cases h
    rw [hdig] at h
    dsimp only at h
    obtain ⟨hd, hd9⟩ := from_dec_digit_ok hdig
    split at h
    · cases h
    have hdW : d < W := by unfold W; omega
    have h10 : (10 : ℕ) < W := by unfold W; omega
    have hmul := op_mul_spec x (from_u64 n 10)
      (by rw [from_u64_length]; omega) hx (wordsLt_from_u64 n 10 h10)
    rw [from_u64_val, hxl] at hmul
    have hadd := uadd_spec hmul.1
      (by rw [from_u64_length]; omega) hmul.2.1 (wordsLt_from_u64 n d hdW)
    rw [from_u64_val, hmul.2.2] at hadd
    obtain ⟨ih1, ih2, ih3⟩ := ih _ (k + 1) n r hn hadd.1 hadd.2.1 h
    refine ⟨ih1, ih2, ?_⟩
    rw [ih3, List.foldl_cons]
    have hx' : limbsVal (uadd (op_mul x (from_u64 n 10)) (from_u64 n d)) =
        (limbsVal x * 10 + d) % W ^ n := by
      rw [hadd.2.2, Nat.mod_add_mod]
    have hme : limbsVal (uadd (op_mul x (from_u64 n 10)) (from_u64 n d)) ≡
        10 * limbsVal x + (c - 48) [MOD W ^ n] := by
      rw [hx', ← hd, Nat.mul_comm (limbsVal x) 10]
      exact Nat.mod_modEq _ _
    exact decFold_modEq s _ _ _ hme

theorem from_string_dec_invalid (n : ℕ) :
    ∀ (s x : List ℕ) (k : ℕ), (∃ c ∈ s, c < 48 ∨ 57 < c) →
      ∃ e, from_string_dec n s x k = Except.error e := by
  intro s
  induction s with
  | nil =>
    intro x k h
    obtain ⟨c, hc, _⟩ := h
    cases hc
  | cons c s ih =>
    intro x k h
    rw [from_string_dec]
    split
    · exact ⟨_, rfl⟩
    rcases hdig : from_dec_digit c with e | d
    · exact ⟨e, rfl⟩
    dsimp only
    split
    · exact ⟨_, rfl⟩
    · apply ih
      obtain ⟨c2, hc2, hv⟩ := h
      rcases List.mem_cons.mp hc2 with rfl | hm
      · unfold from_dec_digit at hdig
        rw [if_pos hv] at hdig
        cases hdig
      · exact ⟨c2, hm, hv⟩

theorem from_string_dec_too_long (n : ℕ) :
    ∀ (s x : List ℕ) (k : ℕ), 1 ≤ s.length →
      digits10 (64 * n) + 2 ≤ s.length + k →
      ∃ e, from_string_dec n s x k = Except.error e := by
  intro s
  induction s with
  | nil =>
    intro x k h1 _
    simp at h1
  | cons c s ih =>
    intro x k h1 h2
    rw [from_string_dec]
    split
    · exact ⟨_, rfl⟩
    rename_i hk
    push_neg at hk
    rcases hdig : from_dec_digit c with e | d
    · exact ⟨e, rfl⟩
    dsimp only
    split
    · exact ⟨_, rfl⟩
    · apply ih
      · simp only [List.length_cons] at h2
        omega
      · simp only [List.length_cons] at h2
        omega

/-- C6 (amended): on the decimal path of `from_string`, (i) whenever the
parse succeeds the result is the input's numeric value reduced modulo `2^N`,
in particular exact whenever that value fits the width; (ii) a string
containing an invalid (non-decimal) character is rejected with an error;
(iii) a string of more than `digits10 + 1` digits is rejected with an error.
(For a value `>= 2^N` the parse is *not* always rejected: the wraparound
check can miss, see the counterexample.) -/
theorem from_string_mod_spec (n : ℕ) (s : List ℕ) (hn : 0 < n)
    (hnothex : ¬(2 ≤ s.length ∧ s.getD 0 0 = 48 ∧ s.getD 1 0 = 120)) :
    (∀ r, from_string n s = Except.ok r →
      r.length = n ∧ limbsVal r = decStringVal s % W ^ n ∧
      (decStringVal s < W ^ n → limbsVal r = decStringVal s)) ∧
    ((∃ c ∈ s, c < 48 ∨ 57 < c) → ∃ e, from_string n s = Except.error e) ∧
    (digits10 (64 * n) + 2 ≤ s.length → ∃ e, from_string n s = Except.error e) := by
  rw [from_string, if_neg hnothex]
  refine ⟨fun r hok => ?_, fun h => from_string_dec_invalid n s _ 0 h,
    fun h => from_string_dec_too_long n s _ 0 (by omega) (by omega)⟩
  obtain ⟨h1, _, h3⟩ := from_string_dec_ok s _ 0 n r hn (by simp)
    (wordsLt_replicate_zero n) hok
  rw [limbsVal_replicate_zero] at h3
  refine ⟨h1, h3, fun h => ?_⟩
  rw [h3]
  exact Nat.mod_eq_of_lt h

/-- C6 witness: a short in-range input parses exactly, and an input with a
non-decimal character is rejected. -/
theorem from_string_mod_spec_witness :
    from_string 4 [52, 50] = Except.ok [42, 0, 0, 0] ∧
    limbsVal [42, 0, 0, 0] = decStringVal [52, 50] ∧
    (∃ e, from_string 4 [52, 47] = Except.error e) := by
  refine ⟨rfl, ?_, ?_⟩
  · have h := from_string_mod_spec 4 [52, 50] (by omega) (by decide)
    exact (h.1 [42, 0, 0, 0] (by rfl)).2.2 (by decide)
  · have h := from_string_mod_spec 4 [52, 47] (by omega) (by decide)
    exact h.2.1 ⟨47, by decide, by decide⟩

set_option maxRecDepth 1000000 in
/-- C6 counterexample: at width 256, the 78-digit decimal input whose value
is `2^256 + 10` is accepted and silently wrapped to `10` — the claimed
"never silently returns a truncated/wrapped value for an input `>= 2^N`"
fails. -/
theorem from_string_overflow_missed :
    2 ^ 256 ≤ decStringVal
      (("115792089237316195423570985008687907853269984665640564039457584007913129639946".toList).map Char.toNat) ∧
    from_string 4
      (("115792089237316195423570985008687907853269984665640564039457584007913129639946".toList).map Char.toNat) =
      Except.ok [10, 0, 0, 0] ∧
    limbsVal [10, 0, 0, 0] = 10 := by
  refine ⟨by decide, ?_, by decide⟩
  rfl

theorem limbsVal_append (a b : List ℕ) :
    limbsVal (a ++ b) = limbsVal a + W ^ a.length * limbsVal b := by
  induction a with
  | nil => simp [limbsVal]
  | cons w a ih =>
    simp only [List.cons_append, limbsVal_cons, ih, List.length_cons]
    ring

theorem csw_le_length (x : List ℕ) : count_significant_words x ≤ x.length := by
  induction x with
  | nil => simp [count_significant_words]
  | cons w ws ih =>
    simp only [count_significant_words, List.length_cons]
    split <;> [split <;> omega; omega]

theorem csw_zero_val {x : List ℕ} (h : count_significant_words x = 0) :
    limbsVal x = 0 := by
  induction x with
  | nil => rfl
  | cons w ws ih =>
    simp only [count_significant_words] at h
    split at h
    · split at h
      · cases h
      · rename_i hr hw
        simp only [ne_eq, not_not] at hw
        rw [limbsVal_cons, hw, ih hr]
        simp
    · cases h

theorem limbsVal_take_csw :
    ∀ (x : List ℕ) (k : ℕ), count_significant_words x ≤ k →
      limbsVal (x.take k) = limbsVal x := by
  intro x
  induction x with
  | nil => simp
  | cons w ws ih =>
    intro k hk
    rcases k with _ | k'
    · have h0 : count_significant_words (w :: ws) = 0 := by omega
      rw [List.take_zero, csw_zero_val h0]
      rfl
    · simp only [List.take_succ_cons, limbsVal_cons]
      have hws : count_significant_words ws ≤ k' := by
        simp only [count_significant_words] at hk
        split at hk <;> omega
      rw [ih k' hws]

theorem static_cast_val {u : List ℕ} {k : ℕ}
    (h : count_significant_words u ≤ k) :
    limbsVal (static_cast_words k u) = limbsVal u := by
  rw [static_cast_words]
  rcases le_or_lt k u.length with hk | hk
  · rw [List.take_append_of_le_length hk]
    exact limbsVal_take_csw u k h
  · rw [List.take_of_length_le
      (by simp [List.length_append]; omega)]
    rw [limbsVal_append, limbsVal_replicate_zero]
    omega

theorem normalize_m_ge (u v : List ℕ) :
    count_significant_words u ≤ (normalize u v).num_numerator_words := by
  have key : ∀ (c : Prop) (h : Decidable c) (a : ℕ), a ≤ @ite ℕ c h (a + 1) a := by
    intro c h a
    split <;> omega
  simp only [normalize]
  exact key _ _ _

theorem normalize_n_eq (u v : List ℕ) :
    (normalize u v).num_divisor_words = count_significant_words v := rfl

/-- C4 (amended): the early return of `udivrem` fires when the *adjusted*
numerator word count from `normalize` (the trimmed count, incremented when
the normalization overflow word is nonzero or the top numerator word is at
least the divisor's top normalized word) does not exceed the divisor's
trimmed count; then the quotient is 0 and the remainder is the numerator
unchanged. -/
theorem udivrem_early_return_spec (u v : List ℕ)
    (h : (normalize u v).num_numerator_words ≤ (normalize u v).num_divisor_words) :
    udivrem_words u v =
      (List.replicate u.length 0, static_cast_words v.length u) ∧
    limbsVal (static_cast_words v.length u) = limbsVal u ∧
    limbsVal (List.replicate u.length 0) = 0 := by
  refine ⟨?_, ?_, limbsVal_replicate_zero _⟩
  · rw [udivrem_words]
    simp only [h, if_pos]
  · apply static_cast_val
    calc count_significant_words u ≤ (normalize u v).num_numerator_words :=
          normalize_m_ge u v
      _ ≤ (normalize u v).num_divisor_words := h
      _ = count_significant_words v := normalize_n_eq u v
      _ ≤ v.length := csw_le_length v

/-- C4 witness: `2 / 3` at width 128 takes the early return. -/
theorem udivrem_early_return_spec_witness :
    udivrem_words [2, 0] [3, 0] =
      (List.replicate 2 0, static_cast_words 2 [2, 0]) ∧
    limbsVal (static_cast_words 2 [2, 0]) = limbsVal [2, 0] ∧
    limbsVal (List.replicate 2 0) = 0 :=
  udivrem_early_return_spec [2, 0] [3, 0] (by decide)

/-- C4 counterexample: at width 192, `5 / 3` has numerator and divisor with
the same trimmed significant word count (1 each), yet the quotient is 1 and
the remainder 2 — the claim's condition "trimmed numerator words ≤ trimmed
divisor words implies quotient 0, remainder unchanged" is false; the code
compares the *adjusted* count instead. -/
theorem udivrem_trimmed_early_return_false :
    count_significant_words [5, 0, 0] ≤ count_significant_words [3, 0, 0] ∧
    udivrem_words [5, 0, 0] [3, 0, 0] = ([1, 0, 0], [2, 0, 0]) ∧
    ([1, 0, 0] : List ℕ) ≠ List.replicate 3 0 := by
  refine ⟨by decide, by decide, by decide⟩

/- ===== reciprocal_2by1 correctness (Möller–Granlund analysis) ===== -/

set_option maxHeartbeats 4000000 in
theorem recip_stage1 (d d9 v0 d40 Q1 : ℕ)
    (hd1 : 2 ^ 63 ≤ d) (hd2 : d < 2 ^ 64)
    (h9 : d9 = d / 2 ^ 55) (h0 : v0 = 523520 / d9)
    (h40 : d40 = d / 2 ^ 24 + 1) (hQ : Q1 = v0 * v0 * d40 / 2 ^ 40) :
    Q1 + 1 ≤ v0 * 2 ^ 11 ∧ Q1 < 2 ^ 32 ∧
    2 ^ 19 ≤ v0 * 2 ^ 11 - Q1 - 1 ∧ v0 * 2 ^ 11 - Q1 - 1 < 2 ^ 21 ∧
    (v0 * 2 ^ 11 - Q1 - 1) * d40 < 2 ^ 60 ∧
    2 ^ 60 ≤ (v0 * 2 ^ 11 - Q1 - 1) * d40 + 1895428 * 2 ^ 22 := by
  have h9b : 256 ≤ d9 ∧ d9 ≤ 511 := by omega
  have h40b : 2 ^ 39 + 1 ≤ d40 ∧ d40 ≤ 2 ^ 40 := by omega
  obtain ⟨s, hs_eq, hs_lt⟩ : ∃ s, d40 = 2 ^ 31 * d9 + 1 + s ∧ s < 2 ^ 31 :=
    ⟨d40 - 1 - 2 ^ 31 * d9, by omega, by omega⟩
  have hv0d : d9 * v0 + 523520 % d9 = 523520 := by
    rw [h0]; exact Nat.div_add_mod _ _
  have hm0 : 523520 % d9 < d9 := Nat.mod_lt _ (by omega)
  have hv0lo : 1024 ≤ v0 := by
    rw [h0]
    calc (1024 : ℕ) = 523520 / 511 := by norm_num
      _ ≤ 523520 / d9 := Nat.div_le_div_left h9b.2 (by omega)
  have hv0hi : v0 ≤ 2045 := by
    rw [h0]
    calc 523520 / d9 ≤ 523520 / 256 := Nat.div_le_div_left h9b.1 (by omega)
      _ = 2045 := by norm_num
  have hQd : 2 ^ 40 * Q1 + (v0 * v0 * d40) % 2 ^ 40 = v0 * v0 * d40 := by
    rw [hQ]; exact Nat.div_add_mod _ _
  have hR1 : (v0 * v0 * d40) % 2 ^ 40 < 2 ^ 40 := Nat.mod_lt _ (by norm_num)
  have hQb : Q1 < 2 ^ 32 := by
    rw [hQ]
    calc v0 * v0 * d40 / 2 ^ 40 ≤ 2045 * 2045 * 2 ^ 40 / 2 ^ 40 := by
          apply Nat.div_le_div_right
          exact Nat.mul_le_mul (Nat.mul_le_mul hv0hi hv0hi) h40b.2
      _ < 2 ^ 32 := by norm_num
  -- ℤ versions
  set m0 := 523520 % d9 with hm0def
  set R1 := (v0 * v0 * d40) % 2 ^ 40 with hR1def
  have hv0dZ : (d9 : ℤ) * v0 + m0 = 523520 := by exact_mod_cast hv0d
  have hsZ : (d40 : ℤ) = 2 ^ 31 * d9 + 1 + s := by exact_mod_cast hs_eq
  have hQdZ : (2 : ℤ) ^ 40 * Q1 + R1 = v0 * v0 * d40 := by exact_mod_cast hQd
  -- centred error
  have ha : (2 ^ 50 : ℤ) - v0 * d40 =
      768 * 2 ^ 31 + 2 ^ 31 * m0 - v0 * (1 + s) := by
    rw [hsZ]
    linear_combination (-(2 ^ 31 : ℤ)) * hv0dZ
  have hm0Z : (m0 : ℤ) ≤ 510 := by
    have : m0 ≤ 510 := by omega
    exact_mod_cast this
  have haup : (2 ^ 50 : ℤ) - v0 * d40 ≤ 1278 * 2 ^ 31 := by
    have hnn : (0 : ℤ) ≤ v0 * (1 + s) := by positivity
    rw [ha]
    nlinarith
  have halo : -(1277 * 2 ^ 31) ≤ (2 ^ 50 : ℤ) - v0 * d40 := by
    have hb : (v0 : ℤ) * (1 + s) ≤ 2045 * 2 ^ 31 := by
      have h1 : (v0 : ℤ) ≤ 2045 := by exact_mod_cast hv0hi
      have h2 : (1 : ℤ) + s ≤ 2 ^ 31 := by
        have : s + 1 ≤ 2 ^ 31 := hs_lt
        push_cast
        omega
      have h3 : (0 : ℤ) ≤ (v0 : ℤ) := by positivity
      have h4 : (0 : ℤ) ≤ 1 + s := by positivity
      calc (v0 : ℤ) * (1 + s) ≤ 2045 * (1 + s) := by
            exact mul_le_mul_of_nonneg_right h1 h4
        _ ≤ 2045 * 2 ^ 31 := by nlinarith
    rw [ha]
    nlinarith [hm0Z]
  have hasq : ((2 ^ 50 : ℤ) - v0 * d40) ^ 2 ≤ (1278 * 2 ^ 31) ^ 2 := by
    nlinarith [haup, halo]
  have hd40lo : (2 : ℤ) ^ 39 + 1 ≤ (d40 : ℤ) := by exact_mod_cast h40b.1
  have hd40hi : (d40 : ℤ) ≤ 2 ^ 40 := by exact_mod_cast h40b.2
  have hR1Z : (R1 : ℤ) < 2 ^ 40 := by exact_mod_cast hR1
  have hR1Z0 : (0 : ℤ) ≤ R1 := by positivity
  set vZ : ℤ := (v0 : ℤ) * 2 ^ 11 - Q1 - 1 with hvZ
  set aZ : ℤ := (2 ^ 50 : ℤ) - v0 * d40 with haZ
  have hE1 : ((2 : ℤ) ^ 60 - vZ * d40) * 2 ^ 40 = aZ ^ 2 + d40 * (2 ^ 40 - R1) := by
    rw [hvZ, haZ]
    linear_combination (d40 : ℤ) * hQdZ
  -- E1 bounds (scaled by 2^40)
  have hBpos : (0 : ℤ) < (d40 : ℤ) * (2 ^ 40 - R1) := by
    apply mul_pos (by linarith)
    linarith
  have hE1pos : (0 : ℤ) < 2 ^ 60 - vZ * d40 := by
    have h1 : (0 : ℤ) < (2 ^ 60 - vZ * d40) * 2 ^ 40 := by
      rw [hE1]
      nlinarith [sq_nonneg aZ]
    by_contra hcon
    push_neg at hcon
    nlinarith
  have hBup : (d40 : ℤ) * (2 ^ 40 - R1) ≤ 2 ^ 40 * 2 ^ 40 := by
    apply mul_le_mul hd40hi (by linarith) (by linarith) (by positivity)
  have hE1up : 2 ^ 60 - vZ * d40 ≤ 1895428 * 2 ^ 22 := by
    have h1 : (2 ^ 60 - vZ * d40) * 2 ^ 40 ≤ (1895428 * 2 ^ 22) * 2 ^ 40 := by
      rw [hE1]
      nlinarith [hasq, hBup]
    exact le_of_mul_le_mul_right h1 (by positivity)
  -- v1 bounds
  have hv1pos : (0 : ℤ) < vZ := by
    by_contra hcon
    push_neg at hcon
    nlinarith [hd40hi, hE1up]
  have hv1lo : (2 : ℤ) ^ 19 ≤ vZ := by
    by_contra hcon
    push_neg at hcon
    have h1 : vZ * d40 ≤ (2 ^ 19 - 1) * 2 ^ 40 := by
      apply mul_le_mul (by linarith) hd40hi (by linarith) (by norm_num)
    linarith [hE1up]
  have hv1hi : vZ < 2 ^ 21 := by
    by_contra hcon
    push_neg at hcon
    have h1 : (2 : ℤ) ^ 21 * (2 ^ 39 + 1) ≤ vZ * d40 := by
      apply mul_le_mul hcon hd40lo (by norm_num) (by linarith)
    linarith [hE1pos]
  -- back to ℕ
  have hQ1v0 : Q1 + 1 ≤ v0 * 2 ^ 11 := by
    have h1 : (Q1 : ℤ) + 1 ≤ (v0 : ℤ) * 2 ^ 11 := by
      have := hv1pos
      rw [hvZ] at this
      linarith
    exact_mod_cast h1
  have hcast : ((v0 * 2 ^ 11 - Q1 - 1 : ℕ) : ℤ) = vZ := by
    rw [hvZ]
    push_cast
    omega
  refine ⟨hQ1v0, hQb, ?_, ?_, ?_, ?_⟩
  · have h1 : (2 : ℤ) ^ 19 ≤ ((v0 * 2 ^ 11 - Q1 - 1 : ℕ) : ℤ) := by
      rw [hcast]; exact hv1lo
    exact_mod_cast h1
  · have h1 : ((v0 * 2 ^ 11 - Q1 - 1 : ℕ) : ℤ) < 2 ^ 21 := by
      rw [hcast]; exact hv1hi
    exact_mod_cast h1
  · have h1 : ((v0 * 2 ^ 11 - Q1 - 1 : ℕ) : ℤ) * d40 < 2 ^ 60 := by
      rw [hcast]; linarith
    exact_mod_cast h1
  · have h1 : (2 : ℤ) ^ 60 ≤ ((v0 * 2 ^ 11 - Q1 - 1 : ℕ) : ℤ) * d40 + 1895428 * 2 ^ 22 := by
      rw [hcast]; linarith
    exact_mod_cast h1


set_option maxHeartbeats 4000000 in
theorem recip_stage2 (d40 v1 E1 q2 : ℕ)
    (h40a : 2 ^ 39 + 1 ≤ d40) (h40b : d40 ≤ 2 ^ 40)
    (hv1lo : 2 ^ 19 ≤ v1) (hv1hi : v1 < 2 ^ 21)
    (hE1 : v1 * d40 + E1 = 2 ^ 60) (hE1pos : 1 ≤ E1)
    (hE1up : E1 ≤ 1895428 * 2 ^ 22)
    (hq2 : q2 = v1 * E1 / 2 ^ 47) :
    v1 * E1 < 2 ^ 64 ∧
    v1 * 2 ^ 13 + q2 < 2 ^ 34 ∧
    2 ^ 32 ≤ v1 * 2 ^ 13 + q2 ∧
    (v1 * 2 ^ 13 + q2) * d40 + 1 ≤ 2 ^ 73 ∧
    2 ^ 73 ≤ (v1 * 2 ^ 13 + q2) * d40 + (2 * 473857 ^ 2 + d40) := by
  have hwrap : v1 * E1 < 2 ^ 64 := by
    have h1 : v1 * E1 ≤ (2 ^ 21 - 1) * (1895428 * 2 ^ 22) :=
      Nat.mul_le_mul (by omega) hE1up
    omega
  set r2 := v1 * E1 % 2 ^ 47 with hr2def
  have hr2lt : r2 < 2 ^ 47 := Nat.mod_lt _ (by norm_num)
  have hsplit : 2 ^ 47 * q2 + r2 = v1 * E1 := by
    rw [hq2, hr2def]; exact Nat.div_add_mod _ _
  -- move to ℤ
  have hE1Z : (v1 : ℤ) * d40 + E1 = 2 ^ 60 := by exact_mod_cast hE1
  have hsplitZ : (2 : ℤ) ^ 47 * q2 + r2 = (v1 : ℤ) * E1 := by exact_mod_cast hsplit
  have hsub1 : (v1 : ℤ) * d40 = 2 ^ 60 - E1 := by linarith
  have hsub2 : (2 : ℤ) ^ 47 * q2 = (v1 : ℤ) * E1 - r2 := by linarith
  set E2Z : ℤ := (2 : ℤ) ^ 73 - ((v1 : ℤ) * 2 ^ 13 + q2) * d40 with hE2Zdef
  have hE2id : E2Z * 2 ^ 47 = (E1 : ℤ) ^ 2 + r2 * d40 := by
    have hexp : E2Z * 2 ^ 47 =
        2 ^ 120 - 2 ^ 60 * ((v1 : ℤ) * d40) - ((2 : ℤ) ^ 47 * q2) * d40 := by
      rw [hE2Zdef]; ring
    rw [hexp, hsub1, hsub2, mul_comm (v1 : ℤ) (E1 : ℤ)]
    have hE1d40 : (E1 : ℤ) * ((v1 : ℤ) * d40) = (E1 : ℤ) * (2 ^ 60 - E1) := by
      rw [hsub1]
    nlinarith [hE1d40]
  have hE1posZ : (1 : ℤ) ≤ (E1 : ℤ) := by exact_mod_cast hE1pos
  have hE1upZ : (E1 : ℤ) ≤ 1895428 * 2 ^ 22 := by exact_mod_cast hE1up
  have hr2Z : (r2 : ℤ) < 2 ^ 47 := by exact_mod_cast hr2lt
  have hr2Z0 : (0 : ℤ) ≤ (r2 : ℤ) := by positivity
  have hd40Z : (0 : ℤ) < (d40 : ℤ) := by
    have : (0 : ℕ) < d40 := by omega
    exact_mod_cast this
  have hd40hiZ : (d40 : ℤ) ≤ 2 ^ 40 := by exact_mod_cast h40b
  -- E2 ≥ 1
  have hE2pos : (1 : ℤ) ≤ E2Z := by
    have h1 : (0 : ℤ) < E2Z * 2 ^ 47 := by
      rw [hE2id]
      nlinarith [mul_nonneg hr2Z0 (le_of_lt hd40Z)]
    by_contra hcon
    push_neg at hcon
    nlinarith
  -- E2 < 2 * 473857 ^ 2 + d40
  have hE2up : E2Z < 2 * 473857 ^ 2 + (d40 : ℤ) := by
    have hsq : (E1 : ℤ) ^ 2 ≤ (1895428 * 2 ^ 22) ^ 2 := by
      nlinarith
    have hrd : (r2 : ℤ) * d40 ≤ (2 ^ 47 - 1) * d40 := by
      apply mul_le_mul_of_nonneg_right (by linarith) (le_of_lt hd40Z)
    have hconst : ((1895428 : ℤ) * 2 ^ 22) ^ 2 = 2 ^ 47 * (2 * 473857 ^ 2) := by
      norm_num
    have h1 : E2Z * 2 ^ 47 < (2 * 473857 ^ 2 + (d40 : ℤ)) * 2 ^ 47 := by
      rw [hE2id]
      nlinarith
    exact lt_of_mul_lt_mul_right h1 (by positivity)
  -- v2 bounds
  have hv2lo : 2 ^ 32 ≤ v1 * 2 ^ 13 + q2 := by
    have : 2 ^ 19 * 2 ^ 13 ≤ v1 * 2 ^ 13 := Nat.mul_le_mul_right _ hv1lo
    omega
  have hv2d40a : (v1 * 2 ^ 13 + q2) * d40 + 1 ≤ 2 ^ 73 := by
    have h1 : ((v1 * 2 ^ 13 + q2 : ℕ) : ℤ) * d40 + 1 ≤ 2 ^ 73 := by
      push_cast
      linarith
    exact_mod_cast h1
  have hv2d40b : 2 ^ 73 ≤ (v1 * 2 ^ 13 + q2) * d40 + (2 * 473857 ^ 2 + d40) := by
    have h1 : (2 : ℤ) ^ 73 ≤ ((v1 * 2 ^ 13 + q2 : ℕ) : ℤ) * d40 + (2 * 473857 ^ 2 + (d40 : ℤ)) := by
      push_cast
      linarith
    exact_mod_cast h1
  have hv2hi : v1 * 2 ^ 13 + q2 < 2 ^ 34 := by
    by_contra hcon
    push_neg at hcon
    have h1 : 2 ^ 34 * (2 ^ 39 + 1) ≤ (v1 * 2 ^ 13 + q2) * d40 :=
      Nat.mul_le_mul hcon h40a
    omega
  exact ⟨hwrap, hv2hi, hv2lo, hv2d40a, hv2d40b⟩


set_option maxHeartbeats 4000000 in
theorem recip_stage3G (d d40 v2 d0 d63 : ℕ)
    (hdelta1 : d < 2 ^ 24 * d40)
    (hE2a : v2 * d40 + 1 ≤ 2 ^ 73)
    (hd63 : 2 * d63 = d + d0) (hd0 : d0 ≤ 1) :
    v2 * d63 < 2 ^ 96 := by
  have hd63Z : 2 * (d63 : ℤ) = d + d0 := by exact_mod_cast hd63
  have hE2aZ : (v2 : ℤ) * d40 + 1 ≤ 2 ^ 73 := by exact_mod_cast hE2a
  have hdelta1Z : (d : ℤ) < 2 ^ 24 * d40 := by exact_mod_cast hdelta1
  have hd0Z : (d0 : ℤ) ≤ 1 := by exact_mod_cast hd0
  have hv2Z : (0 : ℤ) ≤ (v2 : ℤ) := by positivity
  have hsplit : (v2 : ℤ) * d = 2 ^ 24 * ((v2 : ℤ) * d40) - (v2 : ℤ) * (2 ^ 24 * (d40 : ℤ) - d) := by
    ring
  have hdel : (1 : ℤ) ≤ 2 ^ 24 * (d40 : ℤ) - d := by linarith only [hdelta1Z]
  have hvdel : (v2 : ℤ) * 1 ≤ (v2 : ℤ) * (2 ^ 24 * (d40 : ℤ) - d) :=
    mul_le_mul_of_nonneg_left hdel hv2Z
  have hvd0 : (v2 : ℤ) * d0 ≤ (v2 : ℤ) * 1 :=
    mul_le_mul_of_nonneg_left hd0Z hv2Z
  have htwice : 2 * ((v2 : ℤ) * d63) = (v2 : ℤ) * d + (v2 : ℤ) * d0 := by
    linear_combination (v2 : ℤ) * hd63Z
  have hvd40 : 2 ^ 24 * ((v2 : ℤ) * d40) ≤ 2 ^ 24 * ((2 : ℤ) ^ 73 - 1) :=
    mul_le_mul_of_nonneg_left (by linarith only [hE2aZ]) (by norm_num)
  have hZ : (v2 : ℤ) * d63 < 2 ^ 96 := by
    linarith only [htwice, hsplit, hvdel, hvd0, hvd40]
  exact_mod_cast hZ

set_option maxHeartbeats 4000000 in
theorem recip_stage3 (d d40 v2 d0 d63 G e u u0 h h2 h0 r3 : ℕ)
    (hd1 : 2 ^ 63 ≤ d) (hd2 : d < 2 ^ 64)
    (hdelta1 : d < 2 ^ 24 * d40) (hdelta2 : 2 ^ 24 * d40 ≤ d + 2 ^ 24)
    (hv2lo : 2 ^ 32 ≤ v2) (hv2hi : v2 < 2 ^ 34)
    (hE2a : v2 * d40 + 1 ≤ 2 ^ 73)
    (hE2b : 2 ^ 73 ≤ v2 * d40 + (2 * 473857 ^ 2 + d40))
    (hd63 : 2 * d63 = d + d0) (hd0 : d0 ≤ 1)
    (hG : v2 * d63 + G = 2 ^ 96)
    (he : e = G + d0 * u)
    (hu : 2 * u + u0 = v2) (hu0 : u0 ≤ 1)
    (hh : 2 ^ 64 * h + r3 = v2 * e) (hr3 : r3 < 2 ^ 64)
    (hh2 : 2 * h2 + h0 = h) (hh0 : h0 ≤ 1) :
    e < 2 ^ 64 ∧
    (h2 + v2 * 2 ^ 31) * d + 1 ≤ 2 ^ 128 ∧
    2 ^ 128 ≤ (h2 + v2 * 2 ^ 31) * d + 2 * d ∧
    2 ^ 64 ≤ h2 + v2 * 2 ^ 31 ∧
    h2 + v2 * 2 ^ 31 < 2 ^ 65 := by
  -- integer casts of all hypotheses
  have hd1Z : (2 : ℤ) ^ 63 ≤ (d : ℤ) := by exact_mod_cast hd1
  have hd2Z : (d : ℤ) < 2 ^ 64 := by exact_mod_cast hd2
  have hdelta1Z : (d : ℤ) < 2 ^ 24 * d40 := by exact_mod_cast hdelta1
  have hdelta2Z : (2 : ℤ) ^ 24 * d40 ≤ d + 2 ^ 24 := by exact_mod_cast hdelta2
  have hv2loZ : (2 : ℤ) ^ 32 ≤ (v2 : ℤ) := by exact_mod_cast hv2lo
  have hv2hiZ : (v2 : ℤ) < 2 ^ 34 := by exact_mod_cast hv2hi
  have hE2aZ : (v2 : ℤ) * d40 + 1 ≤ 2 ^ 73 := by exact_mod_cast hE2a
  have hE2bZ : (2 : ℤ) ^ 73 ≤ (v2 : ℤ) * d40 + (2 * 473857 ^ 2 + (d40 : ℤ)) := by
    exact_mod_cast hE2b
  have hd63Z : 2 * (d63 : ℤ) = d + d0 := by exact_mod_cast hd63
  have hd0Z : (d0 : ℤ) ≤ 1 := by exact_mod_cast hd0
  have hGZ : (v2 : ℤ) * d63 + G = 2 ^ 96 := by exact_mod_cast hG
  have heZ : (e : ℤ) = G + d0 * u := by exact_mod_cast he
  have huZ : 2 * (u : ℤ) + u0 = v2 := by exact_mod_cast hu
  have hu0Z : (u0 : ℤ) ≤ 1 := by exact_mod_cast hu0
  have hhZ : (2 : ℤ) ^ 64 * h + r3 = v2 * e := by exact_mod_cast hh
  have hr3Z : (r3 : ℤ) < 2 ^ 64 := by exact_mod_cast hr3
  have hh2Z : 2 * (h2 : ℤ) + h0 = h := by exact_mod_cast hh2
  have hh0Z : (h0 : ℤ) ≤ 1 := by exact_mod_cast hh0
  have hd0sq : d0 * d0 = d0 := by
    have : d0 = 0 ∨ d0 = 1 := by omega
    rcases this with h | h <;> rw [h]
  have hd0sqZ : (d0 : ℤ) * d0 = d0 := by exact_mod_cast hd0sq
  have hd0nn : (0 : ℤ) ≤ (d0 : ℤ) := by positivity
  have hu0nn : (0 : ℤ) ≤ (u0 : ℤ) := by positivity
  have hunn : (0 : ℤ) ≤ (u : ℤ) := by positivity
  have hh0nn : (0 : ℤ) ≤ (h0 : ℤ) := by positivity
  have hr3nn : (0 : ℤ) ≤ (r3 : ℤ) := by positivity
  have hGnn : (0 : ℤ) ≤ (G : ℤ) := by positivity
  have hv2nn : (0 : ℤ) ≤ (v2 : ℤ) := by positivity
  have hdnn : (0 : ℤ) ≤ (d : ℤ) := by positivity
  have hd63nn : (0 : ℤ) ≤ (d63 : ℤ) := by positivity
  -- main exact identity
  have hId : ((2 : ℤ) ^ 128 - ((h2 : ℤ) + v2 * 2 ^ 31) * d) * 2 ^ 65 =
      2 * (G : ℤ) ^ 2 + d0 * v2 * (2 * G + u0 * d63 + u) + d * (r3 + 2 ^ 64 * h0) := by
    linear_combination ((2 : ℤ) ^ 96 * v2 + (v2 : ℤ) * G + (d0 : ℤ) * v2 * u) * hd63Z +
      (-(2 : ℤ) ^ 97 - 2 * (G : ℤ) - (d0 : ℤ) * u0 - 2 * (d0 : ℤ) * u) * hGZ +
      (-((d : ℤ) * v2)) * heZ +
      (-(2 : ℤ) ^ 96 * d0 + (d0 : ℤ) * G) * huZ +
      (-(d : ℤ)) * hhZ +
      (-(2 : ℤ) ^ 64 * (d : ℤ)) * hh2Z +
      ((v2 : ℤ) * u) * hd0sqZ
  -- expression for 2G
  have h2Geq : 2 * (G : ℤ) =
      2 ^ 24 * (2 ^ 73 - (v2 : ℤ) * d40) + (v2 : ℤ) * (2 ^ 24 * (d40 : ℤ) - d) - d0 * v2 := by
    linear_combination (-(v2 : ℤ)) * hd63Z + 2 * hGZ
  -- G is positive
  have hdel1 : (d0 : ℤ) ≤ 2 ^ 24 * (d40 : ℤ) - d := by linarith only [hdelta1Z, hd0Z]
  have hvdel : (v2 : ℤ) * d0 ≤ (v2 : ℤ) * (2 ^ 24 * (d40 : ℤ) - d) :=
    mul_le_mul_of_nonneg_left hdel1 hv2nn
  have hGlo : (2 : ℤ) ^ 23 ≤ (G : ℤ) := by
    linarith only [h2Geq, hE2aZ, hvdel]
  -- G upper bound
  have hdel2 : (2 : ℤ) ^ 24 * (d40 : ℤ) - d ≤ 2 ^ 24 := by linarith only [hdelta2Z]
  have hvdelup : (v2 : ℤ) * (2 ^ 24 * (d40 : ℤ) - d) ≤ 2 ^ 34 * 2 ^ 24 := by
    apply mul_le_mul (by linarith only [hv2hiZ]) hdel2 (by linarith only [hdel1, hd0nn])
      (by norm_num)
  have hE2up24 : (2 : ℤ) ^ 24 * (2 ^ 73 - (v2 : ℤ) * d40) ≤
      2 ^ 24 * (2 * 473857 ^ 2 + (d40 : ℤ)) := by
    apply mul_le_mul_of_nonneg_left (by linarith only [hE2bZ]) (by norm_num)
  have hd40up : (d40 : ℤ) ≤ 2 ^ 40 := by linarith only [hdelta2Z, hd2Z]
  have hd0v2nn : (0 : ℤ) ≤ (d0 : ℤ) * v2 := mul_nonneg hd0nn hv2nn
  have h2Gup : 2 * (G : ℤ) ≤ d + (2 ^ 25 * 473857 ^ 2 + 2 ^ 24 + 2 ^ 58) := by
    linarith only [h2Geq, hE2up24, hvdelup, hdelta2Z, hd0v2nn]
  have hGmax : (G : ℤ) ≤ 2 ^ 63 + 2 ^ 24 * 473857 ^ 2 + 2 ^ 23 + 2 ^ 57 := by
    linarith only [h2Gup, hd2Z]
  -- e < 2^64
  have huup : (u : ℤ) ≤ 2 ^ 33 := by linarith only [huZ, hv2hiZ, hu0nn]
  have hd0u : (d0 : ℤ) * u ≤ 1 * (u : ℤ) := mul_le_mul_of_nonneg_right hd0Z hunn
  have he64Z : (e : ℤ) < 2 ^ 64 := by
    rw [heZ]
    linarith only [hGmax, hd0u, huup]
  have he64 : e < 2 ^ 64 := by exact_mod_cast he64Z
  -- Δ > 0
  have hGsq : (2 : ℤ) ^ 46 ≤ (G : ℤ) ^ 2 := by
    calc (2 : ℤ) ^ 46 = 2 ^ 23 * 2 ^ 23 := by norm_num
      _ ≤ (G : ℤ) * G := mul_le_mul hGlo hGlo (by norm_num) hGnn
      _ = (G : ℤ) ^ 2 := (sq (G : ℤ)).symm
  have hmid_nn : (0 : ℤ) ≤ (d0 : ℤ) * v2 * (2 * G + u0 * d63 + u) := by
    apply mul_nonneg hd0v2nn
    have h1 : (0 : ℤ) ≤ (u0 : ℤ) * d63 := mul_nonneg hu0nn hd63nn
    linarith only [h1, hGnn, hunn]
  have hlast_nn : (0 : ℤ) ≤ (d : ℤ) * (r3 + 2 ^ 64 * h0) := by
    apply mul_nonneg hdnn
    linarith only [hr3nn, hh0nn]
  have hDeltaPos : (1 : ℤ) ≤ 2 ^ 128 - ((h2 : ℤ) + v2 * 2 ^ 31) * d := by
    have hpos : (0 : ℤ) < ((2 : ℤ) ^ 128 - ((h2 : ℤ) + v2 * 2 ^ 31) * d) * 2 ^ 65 := by
      rw [hId]
      linarith only [hGsq, hmid_nn, hlast_nn]
    by_contra hcon
    push_neg at hcon
    have h2' : ((2 : ℤ) ^ 128 - ((h2 : ℤ) + v2 * 2 ^ 31) * d) * 2 ^ 65 ≤ 0 * 2 ^ 65 :=
      mul_le_mul_of_nonneg_right (by linarith only [hcon]) (by norm_num)
    linarith only [hpos, h2']
  -- Δ ≤ 2d
  have ht1 : 2 * (G : ℤ) * G ≤
      ((d : ℤ) + (2 ^ 25 * 473857 ^ 2 + 2 ^ 24 + 2 ^ 58)) *
        (2 ^ 63 + 2 ^ 24 * 473857 ^ 2 + 2 ^ 23 + 2 ^ 57) := by
    apply mul_le_mul h2Gup hGmax hGnn
    linarith only [hdnn]
  have ht1' : 2 * (G : ℤ) ^ 2 ≤
      ((d : ℤ) + (2 ^ 25 * 473857 ^ 2 + 2 ^ 24 + 2 ^ 58)) *
        (2 ^ 63 + 2 ^ 24 * 473857 ^ 2 + 2 ^ 23 + 2 ^ 57) := by
    calc 2 * (G : ℤ) ^ 2 = 2 * G * G := by ring
      _ ≤ _ := ht1
  have hd63up : (d63 : ℤ) ≤ 2 ^ 63 := by linarith only [hd63Z, hd2Z, hd0Z]
  have hu0d63 : (u0 : ℤ) * d63 ≤ 1 * (2 : ℤ) ^ 63 :=
    mul_le_mul hu0Z hd63up hd63nn (by norm_num)
  have hinner : 2 * (G : ℤ) + u0 * d63 + u ≤
      2 * (2 ^ 63 + 2 ^ 24 * 473857 ^ 2 + 2 ^ 23 + 2 ^ 57) + 2 ^ 63 + 2 ^ 33 := by
    linarith only [hGmax, hu0d63, huup]
  have hinner_nn : (0 : ℤ) ≤ 2 * (G : ℤ) + u0 * d63 + u := by
    have h1 : (0 : ℤ) ≤ (u0 : ℤ) * d63 := mul_nonneg hu0nn hd63nn
    linarith only [h1, hGnn, hunn]
  have hd0v2 : (d0 : ℤ) * v2 ≤ 2 ^ 34 := by
    have h1 : (d0 : ℤ) * v2 ≤ 1 * (v2 : ℤ) := mul_le_mul_of_nonneg_right hd0Z hv2nn
    linarith only [h1, hv2hiZ]
  have ht2 : (d0 : ℤ) * v2 * (2 * G + u0 * d63 + u) ≤
      2 ^ 34 * (2 * (2 ^ 63 + 2 ^ 24 * 473857 ^ 2 + 2 ^ 23 + 2 ^ 57) + 2 ^ 63 + 2 ^ 33) :=
    mul_le_mul hd0v2 hinner hinner_nn (by norm_num)
  have ht3 : (d : ℤ) * (r3 + 2 ^ 64 * h0) ≤ (d : ℤ) * (2 ^ 65 - 1) :=
    mul_le_mul_of_nonneg_left (by linarith only [hr3Z, hh0Z]) hdnn
  have hmargin : (2 ^ 25 * 473857 ^ 2 + 2 ^ 24 + 2 ^ 58) *
        (2 ^ 63 + 2 ^ 24 * 473857 ^ 2 + 2 ^ 23 + 2 ^ 57) +
      2 ^ 34 * (2 * (2 ^ 63 + 2 ^ 24 * 473857 ^ 2 + 2 ^ 23 + 2 ^ 57) + 2 ^ 63 + 2 ^ 33) ≤
      (2 : ℤ) ^ 63 * (2 ^ 65 + 1 - (2 ^ 63 + 2 ^ 24 * 473857 ^ 2 + 2 ^ 23 + 2 ^ 57)) := by
    norm_num
  have hdmargin : (2 : ℤ) ^ 63 *
        (2 ^ 65 + 1 - (2 ^ 63 + 2 ^ 24 * 473857 ^ 2 + 2 ^ 23 + 2 ^ 57)) ≤
      (d : ℤ) * (2 ^ 65 + 1 - (2 ^ 63 + 2 ^ 24 * 473857 ^ 2 + 2 ^ 23 + 2 ^ 57)) :=
    mul_le_mul_of_nonneg_right hd1Z (by norm_num)
  have hDeltaUp : 2 ^ 128 - ((h2 : ℤ) + v2 * 2 ^ 31) * d ≤ 2 * d := by
    have hscaled : ((2 : ℤ) ^ 128 - ((h2 : ℤ) + v2 * 2 ^ 31) * d) * 2 ^ 65 ≤
        2 * (d : ℤ) * 2 ^ 65 := by
      rw [hId]
      linarith only [ht1', ht2, ht3, hmargin, hdmargin]
    exact le_of_mul_le_mul_right hscaled (by norm_num)
  -- V3 range
  have hV3nn : (0 : ℤ) ≤ (h2 : ℤ) + v2 * 2 ^ 31 := by positivity
  have hV3lo : (2 : ℤ) ^ 64 ≤ (h2 : ℤ) + v2 * 2 ^ 31 := by
    by_contra hcon
    push_neg at hcon
    have h1 : ((h2 : ℤ) + v2 * 2 ^ 31) * d ≤ (2 ^ 64 - 1) * d :=
      mul_le_mul_of_nonneg_right (by linarith only [hcon]) hdnn
    have h2' : (2 ^ 64 + 1) * (d : ℤ) ≤ (2 ^ 64 + 1) * (2 ^ 64 - 1) :=
      mul_le_mul_of_nonneg_left (by linarith only [hd2Z]) (by norm_num)
    linarith only [h1, h2', hDeltaUp]
  have hV3hi : (h2 : ℤ) + v2 * 2 ^ 31 < 2 ^ 65 := by
    by_contra hcon
    push_neg at hcon
    have h1 : (2 : ℤ) ^ 65 * 2 ^ 63 ≤ ((h2 : ℤ) + v2 * 2 ^ 31) * d :=
      mul_le_mul hcon hd1Z (by norm_num) hV3nn
    linarith only [h1, hDeltaPos]
  refine ⟨he64, ?_, ?_, ?_, ?_⟩
  · have h1 : ((h2 + v2 * 2 ^ 31 : ℕ) : ℤ) * d + 1 ≤ 2 ^ 128 := by
      push_cast
      linarith only [hDeltaPos]
    exact_mod_cast h1
  · have h1 : (2 : ℤ) ^ 128 ≤ ((h2 + v2 * 2 ^ 31 : ℕ) : ℤ) * d + 2 * d := by
      push_cast
      linarith only [hDeltaUp]
    exact_mod_cast h1
  · have h1 : (2 : ℤ) ^ 64 ≤ ((h2 + v2 * 2 ^ 31 : ℕ) : ℤ) := by
      push_cast
      linarith only [hV3lo]
    exact_mod_cast h1
  · have h1 : ((h2 + v2 * 2 ^ 31 : ℕ) : ℤ) < 2 ^ 65 := by
      push_cast
      linarith only [hV3hi]
    exact_mod_cast h1


set_option maxHeartbeats 4000000 in
theorem recip_final (d V3 v3 : ℕ)
    (hd1 : 2 ^ 63 ≤ d) (hd2 : d < 2 ^ 64)
    (hV3a : V3 * d + 1 ≤ 2 ^ 128) (hV3b : 2 ^ 128 ≤ V3 * d + 2 * d)
    (hV3lo : 2 ^ 64 ≤ V3) (hV3hi : V3 < 2 ^ 65)
    (hv3 : v3 + 2 ^ 64 = V3) :
    (2 * 2 ^ 64 + v3 - (v3 * d + d) / 2 ^ 64 - d) % 2 ^ 64 = (2 ^ 128 - 1) / d - 2 ^ 64 := by
  have hAB : v3 * d + 2 ^ 64 * d = V3 * d := by
    rw [← hv3]; ring
  have hq4 : 2 ^ 64 * ((v3 * d + d) / 2 ^ 64) + (v3 * d + d) % 2 ^ 64 = v3 * d + d :=
    Nat.div_add_mod _ _
  have hr4 : (v3 * d + d) % 2 ^ 64 < 2 ^ 64 := Nat.mod_lt _ (by norm_num)
  rcases le_or_lt (2 ^ 128) (V3 * d + d) with hc | hc
  · -- Δ ≤ d : quotient is 2^64 + v3
    have hT : (2 ^ 128 - 1) / d = 2 ^ 64 + v3 := by
      apply Nat.div_eq_of_lt_le
      · rw [show 2 ^ 64 + v3 = V3 from by omega]
        omega
      · rw [show (2 ^ 64 + v3 + 1) * d = V3 * d + d from by rw [show 2 ^ 64 + v3 + 1 = V3 + 1 from by omega]; ring]
        omega
    rw [hT]
    omega
  · -- Δ > d : quotient is 2^64 + v3 + 1
    have hT : (2 ^ 128 - 1) / d = 2 ^ 64 + v3 + 1 := by
      apply Nat.div_eq_of_lt_le
      · rw [show (2 ^ 64 + v3 + 1) * d = V3 * d + d from by rw [show 2 ^ 64 + v3 + 1 = V3 + 1 from by omega]; ring]
        omega
      · rw [show (2 ^ 64 + v3 + 1 + 1) * d = V3 * d + 2 * d from by rw [show 2 ^ 64 + v3 + 1 + 1 = V3 + 2 from by omega]; ring]
        omega
    rw [hT]
    -- need v3 + 1 < 2^64, i.e. V3 ≤ 2^65 - 2 in this branch
    have hV3top : V3 + 1 < 2 ^ 65 := by
      by_contra hcon
      push_neg at hcon
      have hVeq : V3 = 2 ^ 65 - 1 := by omega
      have : V3 * d = (2 ^ 65 - 1) * d := by rw [hVeq]
      omega
    omega

set_option maxHeartbeats 4000000 in
theorem reciprocal_2by1_correct (d : ℕ) (hd1 : 2 ^ 63 ≤ d) (hd2 : d < 2 ^ 64) :
    reciprocal_2by1 d = (2 ^ 128 - 1) / d - 2 ^ 64 := by
  simp only [reciprocal_2by1, reciprocal_table_item, W]
  set d9 := d / 2 ^ 55 with hd9
  have h256 : 0x100 + (d9 - 256) % 256 = d9 := by omega
  rw [h256]
  set v0 := 0x7fd00 / d9 with hv0
  set d40 := d / 2 ^ 24 + 1 with hd40
  set Q1 := v0 * v0 * d40 / 2 ^ 40 with hQ1
  obtain ⟨h1a, h1b, h1c, h1d, h1e, h1f⟩ :=
    recip_stage1 d d9 v0 d40 Q1 hd1 hd2 hd9 hv0 hd40 hQ1
  have hv1 : (2 ^ 32 + v0 * 2 ^ 11 - Q1 % 2 ^ 32 - 1) % 2 ^ 32 = v0 * 2 ^ 11 - Q1 - 1 := by
    omega
  rw [hv1]
  set v1 := v0 * 2 ^ 11 - Q1 - 1 with hv1n
  set E1 := 2 ^ 60 - v1 * d40 with hE1n
  have hE1eq : v1 * d40 + E1 = 2 ^ 60 := by omega
  have hE1pos : 1 ≤ E1 := by omega
  have hE1up : E1 ≤ 1895428 * 2 ^ 22 := by omega
  have h40a : 2 ^ 39 + 1 ≤ d40 := by omega
  have h40b : d40 ≤ 2 ^ 40 := by omega
  obtain ⟨hw64, hv2hi, hv2lo, hE2a, hE2b⟩ :=
    recip_stage2 d40 v1 E1 (v1 * E1 / 2 ^ 47) h40a h40b h1c h1d hE1eq hE1pos hE1up rfl
  have hinner : (2 ^ 64 + 2 ^ 60 - v1 * d40 % 2 ^ 64) % 2 ^ 64 = E1 := by omega
  rw [hinner]
  have hv2 : (v1 * 2 ^ 13 % 2 ^ 64 + v1 * E1 % 2 ^ 64 / 2 ^ 47) % 2 ^ 64 =
      v1 * 2 ^ 13 + v1 * E1 / 2 ^ 47 := by
    omega
  rw [hv2]
  set v2 := v1 * 2 ^ 13 + v1 * E1 / 2 ^ 47 with hv2n
  set d0 := d % 2 with hd0n
  set d63 := d / 2 + d0 with hd63n
  have hd63eq : 2 * d63 = d + d0 := by omega
  have hd0le : d0 ≤ 1 := by omega
  have hdelta1 : d < 2 ^ 24 * d40 := by omega
  have hdelta2 : 2 ^ 24 * d40 ≤ d + 2 ^ 24 := by omega
  have hGlt : v2 * d63 < 2 ^ 96 := recip_stage3G d d40 v2 d0 d63 hdelta1 hE2a hd63eq hd0le
  set G := 2 ^ 96 - v2 * d63 with hGn
  have hGeq : v2 * d63 + G = 2 ^ 96 := by omega
  set u := v2 / 2 with hun
  set u0 := v2 % 2 with hu0n
  have hueq : 2 * u + u0 = v2 := by omega
  have hu0le : u0 ≤ 1 := by omega
  have hif : (if d0 = 1 then u else 0) = d0 * u := by
    have hcase : d0 = 0 ∨ d0 = 1 := by omega
    rcases hcase with h | h <;> simp [h]
  set eN := G + d0 * u with heNn
  set hN := v2 * eN / 2 ^ 64 with hhn
  set r3 := v2 * eN % 2 ^ 64 with hr3n
  set h2N := hN / 2 with hh2n
  set h0N := hN % 2 with hh0n
  have hhe : 2 ^ 64 * hN + r3 = v2 * eN := by omega
  have hr3lt : r3 < 2 ^ 64 := by omega
  have hh2eq : 2 * h2N + h0N = hN := by omega
  have hh0le : h0N ≤ 1 := by omega
  obtain ⟨he64, hV3a, hV3b, hV3lo, hV3hi⟩ :=
    recip_stage3 d d40 v2 d0 d63 G eN u u0 hN h2N h0N r3 hd1 hd2 hdelta1 hdelta2
      hv2lo hv2hi hE2a hE2b hd63eq hd0le hGeq heNn hueq hu0le hhe hr3lt hh2eq hh0le
  have hmess : (2 ^ 64 + (if d0 = 1 then u else 0) - v2 * d63 % 2 ^ 64) % 2 ^ 64 = eN := by
    rw [hif]
    omega
  rw [hmess, ← hhn, ← hh2n]
  have hv3val : (h2N + v2 * 2 ^ 31 % 2 ^ 64) % 2 ^ 64 = h2N + v2 * 2 ^ 31 - 2 ^ 64 := by
    omega
  rw [hv3val]
  exact recip_final d (h2N + v2 * 2 ^ 31) (h2N + v2 * 2 ^ 31 - 2 ^ 64)
    hd1 hd2 hV3a hV3b hV3lo hV3hi (by omega)

/-- C2: for every 64-bit `d` with its top bit set, `reciprocal_2by1 d`
returns exactly `⌊(2^128 - 1) / d⌋ - 2^64`, the 2-by-1 reciprocal of the
normalized divisor, as computed by the Newton-style refinement seeded from
the 256-entry table indexed by the top 9 bits of `d`. -/
theorem reciprocal_2by1_spec (d : ℕ) (hd1 : 2 ^ 63 ≤ d) (hd2 : d < 2 ^ 64) :
    reciprocal_2by1 d = (2 ^ 128 - 1) / d - 2 ^ 64 :=
  reciprocal_2by1_correct d hd1 hd2

/-- C2 witness: the reciprocal of the concrete normalized divisor
`2^63 + 12345` is exactly `⌊(2^128-1)/(2^63+12345)⌋ - 2^64`. -/
theorem reciprocal_2by1_spec_witness :
    2 ^ 63 ≤ 2 ^ 63 + 12345 ∧
    reciprocal_2by1 (2 ^ 63 + 12345) = (2 ^ 128 - 1) / (2 ^ 63 + 12345) - 2 ^ 64 :=
  ⟨by norm_num, reciprocal_2by1_spec (2 ^ 63 + 12345) (by norm_num) (by norm_num)⟩


end Intx
